import Mathlib

/-
Verification of the symbaker core against its specification.

The development shallowly embeds the core of the repository:
  * the sanitizer and export-prefix resolution engine (src/lib.rs),
  * the inheritance enforcer and the dependency-fallback warning (src/lib.rs),
  * the NRO module-image symbol parser and the fallback symbol extractor
    (src/out.rs),
  * the cross-artifact duplicate detector (src/bin/cargo-symdump.rs),
  * the export-name rendering of the two attribute macros
    (src/lib.rs, src/filter.rs).

Strings are modelled as lists of naturals (Unicode scalar values for the
resolution engine, raw bytes for the binary parser).  Fallible code is
modelled with Except; process-global one-shot state (the OnceLock used for
the one-time warning) is modelled by explicit state passing.
-/

namespace Symbaker

/-- Strings are modelled as lists of naturals.  For the resolution engine a
`RStr` is the list of Unicode scalar values of a Rust `String`; for the
binary parser it is a list of bytes. -/
abbrev RStr := List Nat

/-- Convenience conversion from a Lean string literal to its scalar values. -/
def strCodes (s : String) : RStr := s.data.map (fun c => c.toNat)

/-! ### Sanitizer (src/lib.rs, `sanitize`, lines 36-43) -/

/-- `c.is_ascii_alphanumeric() || c == '_'` from the source. -/
def isAlnumUnd (c : Nat) : Bool :=
  (48 ≤ c && c ≤ 57) || (65 ≤ c && c ≤ 90) || (97 ≤ c && c ≤ 122) || c == 95

/-- `c.is_ascii_digit()` from the source. -/
def isDigitCode (c : Nat) : Bool := 48 ≤ c && c ≤ 57

/-- First step of `sanitize` (src/lib.rs line 37-39): map every character
that is not ASCII alphanumeric or underscore to `'_'` (code 95). -/
def sanitizeMap (s : RStr) : RStr := s.map (fun c => if isAlnumUnd c then c else 95)

/-- Second step of `sanitize` (line 40): if the result is empty, push a
single underscore. -/
def sanitizeNe (s : RStr) : RStr := if sanitizeMap s = [] then [95] else sanitizeMap s

/-- Embedding of `sanitize` (src/lib.rs lines 36-43), final step (line 41):
if the first character is an ASCII digit, prepend an underscore. -/
def sanitize (s : RStr) : RStr :=
  if isDigitCode ((sanitizeNe s).headD 95) then 95 :: sanitizeNe s else sanitizeNe s

theorem mem_sanitizeNe (s : RStr) : ∀ c ∈ sanitizeNe s, isAlnumUnd c = true := by
  intro c hc
  unfold sanitizeNe sanitizeMap at hc
  split at hc
  · simp at hc
    simp [hc, isAlnumUnd]
  · rcases List.mem_map.mp hc with ⟨e, _, he⟩
    by_cases h : isAlnumUnd e = true
    · rw [if_pos h] at he
      simpa [he] using h
    · rw [if_neg h] at he
      simp [← he, isAlnumUnd]

theorem sanitizeNe_ne_nil (s : RStr) : sanitizeNe s ≠ [] := by
  unfold sanitizeNe
  split <;> simp_all

theorem sanitize_all_alnumUnd (s : RStr) : ∀ c ∈ sanitize s, isAlnumUnd c = true := by
  intro c hc
  unfold sanitize at hc
  split at hc
  · simp at hc
    rcases hc with hc | hc
    · simp [hc, isAlnumUnd]
    · exact mem_sanitizeNe s c hc
  · exact mem_sanitizeNe s c hc

theorem sanitize_ne_nil (s : RStr) : sanitize s ≠ [] := by
  unfold sanitize
  split
  · simp
  · exact sanitizeNe_ne_nil s

theorem sanitize_head_not_digit (s : RStr) :
    isDigitCode ((sanitize s).headD 95) = false := by
  unfold sanitize
  split
  · simp [isDigitCode]
  · simp_all

theorem sanitizeMap_of_clean (t : RStr) (hall : ∀ c ∈ t, isAlnumUnd c = true) :
    sanitizeMap t = t := by
  unfold sanitizeMap
  calc t.map (fun c => if isAlnumUnd c then c else 95)
      = t.map id := by
        apply List.map_congr_left
        intro c hc
        simp [hall c hc]
    _ = t := List.map_id _

theorem sanitize_idem (s : RStr) : sanitize (sanitize s) = sanitize s := by
  have hmap : sanitizeMap (sanitize s) = sanitize s :=
    sanitizeMap_of_clean _ (sanitize_all_alnumUnd s)
  have hne : sanitizeNe (sanitize s) = sanitize s := by
    unfold sanitizeNe
    rw [hmap, if_neg (sanitize_ne_nil s)]
  show (if isDigitCode ((sanitizeNe (sanitize s)).headD 95) then
      95 :: sanitizeNe (sanitize s) else sanitizeNe (sanitize s)) = sanitize s
  rw [hne, sanitize_head_not_digit s]
  simp

/-- C6: for every input string, `sanitize` returns a non-empty string made
only of ASCII alphanumerics and underscores whose first character is not a
digit (so it matches `[A-Za-z_][A-Za-z0-9_]*`), and `sanitize` is
idempotent. -/
theorem C6_sanitize_spec (s : RStr) :
    sanitize s ≠ [] ∧
    (∀ c ∈ sanitize s, isAlnumUnd c = true) ∧
    isDigitCode ((sanitize s).headD 95) = false ∧
    sanitize (sanitize s) = sanitize s :=
  ⟨sanitize_ne_nil s, sanitize_all_alnumUnd s, sanitize_head_not_digit s, sanitize_idem s⟩

/-! ### Export-prefix resolution engine (src/lib.rs, `resolve_prefix`, lines 335-445) -/

/-- Embedding of the `PrefixSource` enum (src/lib.rs lines 22-35).  The
constructor names follow the source; `EnvPrefix` is rendered as
`EnvPrefixVar` here. -/
inductive PrefixSource where
  | Override
  | PreferPackagePrefixPackage
  | PreferPackagePrefixCrateFallback
  | Attr
  | EnvPrefixVar
  | Config
  | TopPackage
  | Workspace
  | Package
  | Crate
  | CrateFallbackAfterPriority
deriving DecidableEq

/-- The inputs `resolve_prefix` gathers before its decision chain
(src/lib.rs lines 338-361): the loaded `Config` fields, the provider
outputs, the per-package opt-out flag `read_package_prefers_own_prefix()`,
and the crate name (`CARGO_PKG_NAME` or the literal `"crate"`).  Each
provider value is the already-read `Option<String>`; the override table is
the config's `overrides` map as an association list with unique keys. -/
structure ResolveInputs where
  cfgPrefixVal : Option RStr
  cfgSep : Option RStr
  cfgPriority : Option (List RStr)
  cfgOverrides : List (RStr × RStr)
  envPrefixVal : Option RStr
  topPackage : Option RStr
  workspacePrefixVal : Option RStr
  packagePrefixVal : Option RStr
  prefersOwn : Bool
  crateName : RStr

/-- Embedding of `default_priority` (src/lib.rs lines 238-248). -/
def defaultPriority : List RStr :=
  [strCodes ("attr"), strCodes ("env_prefix"), strCodes ("config"),
   strCodes ("top_package"), strCodes ("workspace"), strCodes ("package"),
   strCodes ("crate")]

/-- Embedding of the priority-list walk of `resolve_prefix` (src/lib.rs
lines 398-444): the first matching known key whose provider holds a value
returns it sanitized; unknown keys only emit a trace note and are skipped;
an exhausted list falls back to the sanitized crate name. -/
def prioWalk (attrArg : Option RStr) (st : ResolveInputs) (sep : RStr) :
    List RStr → RStr × RStr × PrefixSource
  | [] => (sanitize st.crateName, sep, PrefixSource.CrateFallbackAfterPriority)
  | k :: rest =>
    if k = strCodes ("attr") then
      match attrArg with
      | some p => (sanitize p, sep, PrefixSource.Attr)
      | none => prioWalk attrArg st sep rest
    else if k = strCodes ("env_prefix") then
      match st.envPrefixVal with
      | some p => (sanitize p, sep, PrefixSource.EnvPrefixVar)
      | none => prioWalk attrArg st sep rest
    else if k = strCodes ("config") then
      match st.cfgPrefixVal with
      | some p => (sanitize p, sep, PrefixSource.Config)
      | none => prioWalk attrArg st sep rest
    else if k = strCodes ("top_package") then
      match st.topPackage with
      | some p => (sanitize p, sep, PrefixSource.TopPackage)
      | none => prioWalk attrArg st sep rest
    else if k = strCodes ("workspace") then
      match st.workspacePrefixVal with
      | some p => (sanitize p, sep, PrefixSource.Workspace)
      | none => prioWalk attrArg st sep rest
    else if k = strCodes ("package") then
      match st.packagePrefixVal with
      | some p => (sanitize p, sep, PrefixSource.Package)
      | none => prioWalk attrArg st sep rest
    else if k = strCodes ("crate") then
      (sanitize st.crateName, sep, PrefixSource.Crate)
    else prioWalk attrArg st sep rest

/-- Embedding of `resolve_prefix` (src/lib.rs lines 335-445), minus the
trace side effects: separator defaults to `"__"`, priority defaults to
`default_priority()`; an override-table hit wins first, then the
per-package opt-out, then the priority walk. -/
def resolvePrefixFn (attrArg : Option RStr) (st : ResolveInputs) :
    RStr × RStr × PrefixSource :=
  let sep := st.cfgSep.getD (strCodes ("__"))
  let prio := st.cfgPriority.getD defaultPriority
  match st.cfgOverrides.lookup st.crateName with
  | some p => (sanitize p, sep, PrefixSource.Override)
  | none =>
    if st.prefersOwn then
      match st.packagePrefixVal with
      | some p => (sanitize p, sep, PrefixSource.PreferPackagePrefixPackage)
      | none => (sanitize st.crateName, sep, PrefixSource.PreferPackagePrefixCrateFallback)
    else prioWalk attrArg st sep prio

/-- C1: an override-table entry for the package name wins unconditionally,
returning the sanitized override value with source `Override`, regardless
of attribute, environment, config, opt-out flag or priority ordering. -/
theorem C1_override_wins (attrArg : Option RStr) (st : ResolveInputs) (p : RStr)
    (h : st.cfgOverrides.lookup st.crateName = some p) :
    resolvePrefixFn attrArg st =
      (sanitize p, st.cfgSep.getD (strCodes ("__")), PrefixSource.Override) := by
  unfold resolvePrefixFn
  rw [h]

/-- Inputs exercising C1 concretely: an override entry for the crate is
present together with an attribute value, an environment value, a config
value, and the opt-out flag. -/
def stC1 : ResolveInputs :=
  { cfgPrefixVal := some (strCodes ("z"))
    cfgSep := none
    cfgPriority := none
    cfgOverrides := [(strCodes ("mypkg"), strCodes ("ov-1"))]
    envPrefixVal := some (strCodes ("y"))
    topPackage := none
    workspacePrefixVal := none
    packagePrefixVal := some (strCodes ("pk"))
    prefersOwn := true
    crateName := strCodes ("mypkg") }

theorem C1_witness :
    stC1.cfgOverrides.lookup stC1.crateName = some (strCodes ("ov-1")) ∧
    resolvePrefixFn (some (strCodes ("x"))) stC1 =
      (sanitize (strCodes ("ov-1")), strCodes ("__"), PrefixSource.Override) :=
  ⟨by decide, C1_override_wins (some (strCodes ("x"))) stC1 (strCodes ("ov-1")) (by decide)⟩

/-- The claim's reading of each priority-list key: the provider's candidate
paired with its provenance; `none` for unknown keys (they are skipped). -/
def providerOf (attrArg : Option RStr) (st : ResolveInputs) (k : RStr) :
    Option (RStr × PrefixSource) :=
  if k = strCodes ("attr") then attrArg.map (fun p => (p, PrefixSource.Attr))
  else if k = strCodes ("env_prefix") then
    st.envPrefixVal.map (fun p => (p, PrefixSource.EnvPrefixVar))
  else if k = strCodes ("config") then
    st.cfgPrefixVal.map (fun p => (p, PrefixSource.Config))
  else if k = strCodes ("top_package") then
    st.topPackage.map (fun p => (p, PrefixSource.TopPackage))
  else if k = strCodes ("workspace") then
    st.workspacePrefixVal.map (fun p => (p, PrefixSource.Workspace))
  else if k = strCodes ("package") then
    st.packagePrefixVal.map (fun p => (p, PrefixSource.Package))
  else if k = strCodes ("crate") then some (st.crateName, PrefixSource.Crate)
  else none

/-- The amended C2 statement's reference resolution: walk the priority list
and take the first key whose provider yields a candidate, sanitized with
that source's provenance; candidates may be empty strings.  An exhausted
list falls back to the sanitized crate name. -/
def resolveSpecAmended (attrArg : Option RStr) (st : ResolveInputs) :
    RStr × RStr × PrefixSource :=
  let sep := st.cfgSep.getD (strCodes ("__"))
  match (st.cfgPriority.getD defaultPriority).findSome? (providerOf attrArg st) with
  | some (p, src) => (sanitize p, sep, src)
  | none => (sanitize st.crateName, sep, PrefixSource.CrateFallbackAfterPriority)

theorem prioWalk_cons_some (attrArg : Option RStr) (st : ResolveInputs)
    (sep k : RStr) (rest : List RStr) (p : RStr) (src : PrefixSource)
    (h : providerOf attrArg st k = some (p, src)) :
    prioWalk attrArg st sep (k :: rest) = (sanitize p, sep, src) := by
  simp only [prioWalk]
  unfold providerOf at h
  by_cases h1 : k = strCodes ("attr")
  · simp only [h1, if_pos rfl] at h ⊢
    cases hA : attrArg <;> simp_all
  · simp only [if_neg h1] at h ⊢
    by_cases h2 : k = strCodes ("env_prefix")
    · simp only [h2, if_pos rfl] at h ⊢
      cases hB : st.envPrefixVal <;> simp_all
    · simp only [if_neg h2] at h ⊢
      by_cases h3 : k = strCodes ("config")
      · simp only [h3, if_pos rfl] at h ⊢
        cases hC : st.cfgPrefixVal <;> simp_all
      · simp only [if_neg h3] at h ⊢
        by_cases h4 : k = strCodes ("top_package")
        · simp only [h4, if_pos rfl] at h ⊢
          cases hD : st.topPackage <;> simp_all
        · simp only [if_neg h4] at h ⊢
          by_cases h5 : k = strCodes ("workspace")
          · simp only [h5, if_pos rfl] at h ⊢
            cases hE : st.workspacePrefixVal <;> simp_all
          · simp only [if_neg h5] at h ⊢
            by_cases h6 : k = strCodes ("package")
            · simp only [h6, if_pos rfl] at h ⊢
              cases hF : st.packagePrefixVal <;> simp_all
            · simp only [if_neg h6] at h ⊢
              by_cases h7 : k = strCodes ("crate")
              · simp only [h7, if_pos rfl] at h ⊢
                simp_all
              · simp only [if_neg h7] at h
                exact absurd h (by simp)

theorem prioWalk_cons_none (attrArg : Option RStr) (st : ResolveInputs)
    (sep k : RStr) (rest : List RStr)
    (h : providerOf attrArg st k = none) :
    prioWalk attrArg st sep (k :: rest) = prioWalk attrArg st sep rest := by
  simp only [prioWalk]
  unfold providerOf at h
  by_cases h1 : k = strCodes ("attr")
  · simp only [h1, if_pos rfl] at h ⊢
    cases hA : attrArg <;> simp_all
  · simp only [if_neg h1] at h ⊢
    by_cases h2 : k = strCodes ("env_prefix")
    · simp only [h2, if_pos rfl] at h ⊢
      cases hB : st.envPrefixVal <;> simp_all
    · simp only [if_neg h2] at h ⊢
      by_cases h3 : k = strCodes ("config")
      · simp only [h3, if_pos rfl] at h ⊢
        cases hC : st.cfgPrefixVal <;> simp_all
      · simp only [if_neg h3] at h ⊢
        by_cases h4 : k = strCodes ("top_package")
        · simp only [h4, if_pos rfl] at h ⊢
          cases hD : st.topPackage <;> simp_all
        · simp only [if_neg h4] at h ⊢
          by_cases h5 : k = strCodes ("workspace")
          · simp only [h5, if_pos rfl] at h ⊢
            cases hE : st.workspacePrefixVal <;> simp_all
          · simp only [if_neg h5] at h ⊢
            by_cases h6 : k = strCodes ("package")
            · simp only [h6, if_pos rfl] at h ⊢
              cases hF : st.packagePrefixVal <;> simp_all
            · simp only [if_neg h6] at h ⊢
              by_cases h7 : k = strCodes ("crate")
              · simp only [h7, if_pos rfl] at h
                simp at h
              · simp only [if_neg h7] at h ⊢

theorem prioWalk_eq_findSome (attrArg : Option RStr) (st : ResolveInputs)
    (sep : RStr) (l : List RStr) :
    prioWalk attrArg st sep l =
      (match l.findSome? (providerOf attrArg st) with
       | some (p, src) => (sanitize p, sep, src)
       | none => (sanitize st.crateName, sep, PrefixSource.CrateFallbackAfterPriority)) := by
  induction l with
  | nil => simp [prioWalk]
  | cons k rest ih =>
    rw [List.findSome?_cons]
    cases hp : providerOf attrArg st k with
    | some v =>
      cases v with
      | mk p src =>
        rw [prioWalk_cons_some attrArg st sep k rest p src hp]
    | none =>
      rw [prioWalk_cons_none attrArg st sep k rest hp, ih]

/-- Inputs falsifying C2 as stated: the attribute carries an empty string
while the environment override is non-empty. -/
def stC2 : ResolveInputs :=
  { cfgPrefixVal := none
    cfgSep := none
    cfgPriority := none
    cfgOverrides := []
    envPrefixVal := some (strCodes ("y"))
    topPackage := none
    workspacePrefixVal := none
    packagePrefixVal := none
    prefersOwn := false
    crateName := strCodes ("pkg") }

/-- C2 counterexample: with an empty attribute candidate and a non-empty
environment candidate, the code selects the attribute (sanitizing the
empty string to `"_"`) with source `Attr`; the claim's "first source that
yields a non-empty candidate" would instead demand the environment value
with source `EnvPrefixVar`. -/
theorem C2_counterexample :
    resolvePrefixFn (some []) stC2 = ([95], strCodes ("__"), PrefixSource.Attr) ∧
    ([95], strCodes ("__"), PrefixSource.Attr) ≠
      (sanitize (strCodes ("y")), strCodes ("__"), PrefixSource.EnvPrefixVar) := by
  constructor
  · decide
  · decide

/-- C2 amended: with no override entry and the opt-out flag unset, resolve
walks the configured priority list in order and returns the first source
that yields a candidate — possibly the empty string, which sanitizes to
`"_"` — sanitized with that source's provenance; unknown list entries are
skipped (trace note only, never an error); if no listed source yields a
value, the sanitized package name is returned with source
`CrateFallbackAfterPriority`. -/
theorem C2_amended (attrArg : Option RStr) (st : ResolveInputs)
    (hov : st.cfgOverrides.lookup st.crateName = none)
    (hopt : st.prefersOwn = false) :
    resolvePrefixFn attrArg st = resolveSpecAmended attrArg st := by
  unfold resolvePrefixFn resolveSpecAmended
  rw [hov]
  simp only [hopt, if_neg Bool.false_ne_true]
  exact prioWalk_eq_findSome attrArg st _ _

theorem C2_witness :
    (stC2.cfgOverrides.lookup stC2.crateName = none ∧ stC2.prefersOwn = false) ∧
    resolvePrefixFn (some []) stC2 = resolveSpecAmended (some []) stC2 :=
  ⟨⟨by decide, by decide⟩, C2_amended (some []) stC2 (by decide) (by decide)⟩

theorem resolve_fst_is_sanitized (attrArg : Option RStr) (st : ResolveInputs) :
    ∃ r, (resolvePrefixFn attrArg st).1 = sanitize r := by
  have hwalk : ∀ l sep, ∃ r, (prioWalk attrArg st sep l).1 = sanitize r := by
    intro l sep
    induction l with
    | nil => exact ⟨st.crateName, rfl⟩
    | cons k rest ih =>
      unfold prioWalk
      split
      · cases attrArg with
        | some p => exact ⟨p, rfl⟩
        | none => exact ih
      · split
        · cases h : st.envPrefixVal with
          | some p => exact ⟨p, rfl⟩
          | none => exact ih
        · split
          · cases h : st.cfgPrefixVal with
            | some p => exact ⟨p, rfl⟩
            | none => exact ih
          · split
            · cases h : st.topPackage with
              | some p => exact ⟨p, rfl⟩
              | none => exact ih
            · split
              · cases h : st.workspacePrefixVal with
                | some p => exact ⟨p, rfl⟩
                | none => exact ih
              · split
                · cases h : st.packagePrefixVal with
                  | some p => exact ⟨p, rfl⟩
                  | none => exact ih
                · split
                  · exact ⟨st.crateName, rfl⟩
                  · exact ih
  unfold resolvePrefixFn
  cases h : st.cfgOverrides.lookup st.crateName with
  | some p => exact ⟨p, rfl⟩
  | none =>
    simp only
    split
    · cases h2 : st.packagePrefixVal with
      | some p => exact ⟨p, rfl⟩
      | none => exact ⟨st.crateName, rfl⟩
    · exact hwalk _ _

/-- C7: on every return path of the resolution engine the returned value is
a sanitizer output, hence non-empty, ASCII alphanumeric-or-underscore only,
and never starting with a digit. -/
theorem C7_resolved_invariant (attrArg : Option RStr) (st : ResolveInputs) :
    (resolvePrefixFn attrArg st).1 ≠ [] ∧
    (∀ c ∈ (resolvePrefixFn attrArg st).1, isAlnumUnd c = true) ∧
    isDigitCode ((resolvePrefixFn attrArg st).1.headD 95) = false := by
  obtain ⟨r, hr⟩ := resolve_fst_is_sanitized attrArg st
  rw [hr]
  exact ⟨sanitize_ne_nil r, sanitize_all_alnumUnd r, sanitize_head_not_digit r⟩

/-! ### Inheritance enforcer (src/lib.rs, `enforce_inherited_prefix`, lines
150-179) and dependency-fallback warning (`warn_on_dependency_fallback`,
lines 181-203). -/

/-- The three provenance values rejected for dependencies under
enforcement (src/lib.rs line 168 and line 189). -/
def fallbackSources : List PrefixSource :=
  [PrefixSource.Package, PrefixSource.Crate, PrefixSource.CrateFallbackAfterPriority]

/-- Embedding of `enforce_inherited_prefix`.  `enforceFlag` is
`truthy_env("SYMBAKER_ENFORCE_INHERIT")`; `isPrimaryPackage` is whether
`CARGO_PRIMARY_PACKAGE` is set.  The error payload (a formatted
`syn::Error` naming the crate and source) is abstracted to a fixed
message. -/
def enforceInheritedPrefixFn (enforceFlag : Bool) (isPrimaryPackage : Bool)
    (source : PrefixSource) : Except String Unit :=
  if !enforceFlag then Except.ok ()
  else if isPrimaryPackage then Except.ok ()
  else
    match source with
    | PrefixSource.Override
    | PrefixSource.PreferPackagePrefixPackage
    | PrefixSource.PreferPackagePrefixCrateFallback
    | PrefixSource.Attr
    | PrefixSource.EnvPrefixVar
    | PrefixSource.Config
    | PrefixSource.TopPackage
    | PrefixSource.Workspace => Except.ok ()
    | PrefixSource.Package
    | PrefixSource.Crate
    | PrefixSource.CrateFallbackAfterPriority =>
      Except.error ("symbaker: dependency resolved to local source while SYMBAKER_ENFORCE_INHERIT=1")

/-- Embedding of `warn_on_dependency_fallback`.  The `OnceLock` one-shot
state is passed explicitly as `didWarn`; the result is the new state and
whether a warning was emitted on this call.  The function never fails. -/
def warnOnDependencyFallback (enforceFlag : Bool) (isPrimaryPackage : Bool)
    (didWarn : Bool) (source : PrefixSource) : Bool × Bool :=
  if enforceFlag then (didWarn, false)
  else if isPrimaryPackage then (didWarn, false)
  else
    match source with
    | PrefixSource.Package
    | PrefixSource.Crate
    | PrefixSource.CrateFallbackAfterPriority =>
      if didWarn then (didWarn, false) else (true, true)
    | _ => (didWarn, false)

/-- C3: with the enforcement flag active and a non-primary package, the
enforcer rejects exactly the sources Package, Crate and
CrateFallbackAfterPriority and passes every other source; the primary
package always passes; with the flag inactive the enforcer never errors,
and the warning path fires exactly on the rejected sources for a
non-primary package, at most once (never again once `didWarn` is set, and
never while enforcement is active). -/
theorem C3_enforcement (source : PrefixSource) (isPrim didW : Bool) :
    ((enforceInheritedPrefixFn true false source).isOk = false ↔
      source ∈ fallbackSources) ∧
    (enforceInheritedPrefixFn true true source = Except.ok ()) ∧
    (enforceInheritedPrefixFn false isPrim source = Except.ok ()) ∧
    ((warnOnDependencyFallback false false false source).2 = true ↔
      source ∈ fallbackSources) ∧
    ((warnOnDependencyFallback false isPrim true source).2 = false) ∧
    ((warnOnDependencyFallback false true didW source).2 = false) ∧
    ((warnOnDependencyFallback true isPrim didW source).2 = false) := by
  cases source <;>
    cases isPrim <;>
      cases didW <;>
        simp [enforceInheritedPrefixFn, warnOnDependencyFallback, fallbackSources,
          Except.isOk, Except.toBool]

/-! ### NRO module-image parser (src/out.rs, `parse_nro_symbols`, lines
261-394).  Bytes are modelled as a `List Nat`; the `fs::read` step is
dropped, the parser takes the file's bytes directly. -/

/-- `read_u32_le` (src/out.rs lines 190-194): four little-endian bytes at
`off`, or `None` when the range runs off the end. -/
def read_u32_le (bytes : RStr) (off : Nat) : Option Nat :=
  match bytes[off]?, bytes[off+1]?, bytes[off+2]?, bytes[off+3]? with
  | some b0, some b1, some b2, some b3 =>
    some (b0 + 256 * b1 + 65536 * b2 + 16777216 * b3)
  | _, _, _, _ => none

/-- `read_u64_le` (src/out.rs lines 247-253). -/
def read_u64_le (bytes : RStr) (off : Nat) : Option Nat :=
  match read_u32_le bytes off, read_u32_le bytes (off+4) with
  | some lo, some hi => some (lo + 4294967296 * hi)
  | _, _ => none

/-- `read_u16_le` (src/out.rs lines 255-259). -/
def read_u16_le (bytes : RStr) (off : Nat) : Option Nat :=
  match bytes[off]?, bytes[off+1]? with
  | some b0, some b1 => some (b0 + 256 * b1)
  | _, _ => none

/-- `slice.get(lo..hi)` on a byte buffer: `some` exactly when
`lo ≤ hi ≤ len`. -/
def sliceGet (bytes : RStr) (lo hi : Nat) : Option RStr :=
  if lo ≤ hi ∧ hi ≤ bytes.length then some ((bytes.drop lo).take (hi - lo)) else none

/-- A UTF-8 continuation byte (`0x80..=0xBF`). -/
def isUtf8Cont (b : Nat) : Bool := 128 ≤ b && b ≤ 191

/-- Validity of a byte sequence as UTF-8, as checked by Rust's
`std::str::from_utf8` inside `cstr_at`. -/
def validUtf8 : List Nat → Bool
  | [] => true
  | b :: rest =>
    if b ≤ 127 then validUtf8 rest
    else if 194 ≤ b && b ≤ 223 then
      match rest with
      | c1 :: r => isUtf8Cont c1 && validUtf8 r
      | [] => false
    else if b = 224 then
      match rest with
      | c1 :: c2 :: r => (160 ≤ c1 && c1 ≤ 191) && isUtf8Cont c2 && validUtf8 r
      | _ => false
    else if (225 ≤ b && b ≤ 236) || b = 238 || b = 239 then
      match rest with
      | c1 :: c2 :: r => isUtf8Cont c1 && isUtf8Cont c2 && validUtf8 r
      | _ => false
    else if b = 237 then
      match rest with
      | c1 :: c2 :: r => (128 ≤ c1 && c1 ≤ 159) && isUtf8Cont c2 && validUtf8 r
      | _ => false
    else if b = 240 then
      match rest with
      | c1 :: c2 :: c3 :: r =>
        (144 ≤ c1 && c1 ≤ 191) && isUtf8Cont c2 && isUtf8Cont c3 && validUtf8 r
      | _ => false
    else if 241 ≤ b && b ≤ 243 then
      match rest with
      | c1 :: c2 :: c3 :: r =>
        isUtf8Cont c1 && isUtf8Cont c2 && isUtf8Cont c3 && validUtf8 r
      | _ => false
    else if b = 244 then
      match rest with
      | c1 :: c2 :: c3 :: r =>
        (128 ≤ c1 && c1 ≤ 143) && isUtf8Cont c2 && isUtf8Cont c3 && validUtf8 r
      | _ => false
    else false

/-- `cstr_at` (src/out.rs lines 196-213): the zero-free byte run starting
at `off`, bounded by `maxEnd` and the buffer length; `none` when the run is
empty, out of range, or not valid UTF-8. -/
def cstr_at (bytes : RStr) (off maxEnd : Nat) : Option RStr :=
  if off ≥ maxEnd ∨ off ≥ bytes.length then none
  else
    let window := (bytes.drop off).take (min maxEnd bytes.length - off)
    let name := window.takeWhile (fun b => b ≠ 0)
    if name = [] then none
    else if validUtf8 name then some name else none

/-- Embedding of the `NroSymbol` record (src/out.rs lines 215-223).  The
name is kept as its bytes, so "byte-identical" comparisons are literal. -/
structure NroSymbol where
  name : RStr
  value : Nat
  stType : Nat
  stBind : Nat
  size : Nat
  shndx : Nat
deriving DecidableEq

/-- Strict byte-lexicographic order on byte strings (Rust's `Ord` on
`String` compares the UTF-8 bytes lexicographically). -/
def lexLt : RStr → RStr → Bool
  | _, [] => false
  | [], _ :: _ => true
  | a :: as', b :: bs => a < b || (a = b && lexLt as' bs)

/-- The `sort_by` comparator of `parse_nro_symbols` (src/out.rs lines
387-392) as a `≤` test: lexicographic on `(value, name, shndx)`. -/
def symLe (a b : NroSymbol) : Bool :=
  if a.value < b.value then true
  else if b.value < a.value then false
  else if lexLt a.name b.name then true
  else if lexLt b.name a.name then false
  else decide (a.shndx ≤ b.shndx)

/-- Insert after all entries that compare `≤`, i.e. a stable insertion:
ties keep their original relative order, matching Rust's stable
`sort_by`. -/
def insertStable (le : α → α → Bool) (x : α) : List α → List α
  | [] => [x]
  | y :: ys => if le y x then y :: insertStable le x ys else x :: y :: ys

/-- Stable insertion sort; on a total preorder this computes the same list
as any stable sort, in particular Rust's `sort_by`. -/
def sortByStable (le : α → α → Bool) (l : List α) : List α :=
  l.foldl (fun acc x => insertStable le x acc) []

/-- The walk over the `(tag, value)` dynamic entries (src/out.rs lines
320-337), recording `DT_STRTAB` (5), `DT_STRSZ` (10) and `DT_SYMTAB` (6)
until a null tag or the end of the buffer.  The loop advances by 16 bytes
per step and needs at least 16 in-range bytes per step, so `full.length`
iterations of fuel are always enough. -/
def dynWalk (full : RStr) : Nat → Nat → Option Nat → Option Nat → Option Nat →
    Option Nat × Option Nat × Option Nat
  | 0, _, strtab, strsz, symtab => (strtab, strsz, symtab)
  | fuel+1, off, strtab, strsz, symtab =>
    if off + 16 ≤ full.length then
      let tag := (read_u64_le full off).getD 0
      let val := (read_u64_le full (off+8)).getD 0
      if tag = 0 then (strtab, strsz, symtab)
      else
        dynWalk full fuel (off + 16)
          (if tag = 5 then some val else strtab)
          (if tag = 10 then some val else strsz)
          (if tag = 6 then some val else symtab)
    else (strtab, strsz, symtab)

/-- One iteration of the symbol loop (src/out.rs lines 359-385): the
24-byte entry at index `i`, skipped (`none`) when the name index or the
section index is zero or the name cannot be read. -/
def symAt (full : RStr) (dynsymOff dynstrOff dynstrEnd : Nat) (i : Nat) :
    Option NroSymbol :=
  let base := dynsymOff + i * 24
  let nameIdx := (read_u32_le full base).getD 0
  if nameIdx = 0 then none
  else
    let stInfo := (full[base+4]?).getD 0
    let stShndx := (read_u16_le full (base+6)).getD 0
    let stValue := (read_u64_le full (base+8)).getD 0
    let stSize := (read_u64_le full (base+16)).getD 0
    if stShndx = 0 then none
    else
      match cstr_at full (dynstrOff + nameIdx) dynstrEnd with
      | some name =>
        if name ≠ [] then
          some { name := name, value := stValue, stType := stInfo % 16,
                 stBind := stInfo / 16, size := stSize, shndx := stShndx }
        else none
      | none => none

/-- The `"NRO0"` magic bytes. -/
def nroMagic : RStr := [78, 82, 79, 48]

/-- The `"MOD0"` magic bytes. -/
def mod0Magic : RStr := [77, 79, 68, 48]

/-- Embedding of `parse_nro_symbols` (src/out.rs lines 261-394) on the
file's bytes.  `saturating_add` is modelled as plain addition (no overflow
exists on `Nat`; a saturated sum and the plain sum land out of range
together).  The flattened image is rebuilt exactly as in the source:
text, padded or truncated to `rloc`, then ro, padded or truncated to
`dloc`, then data. -/
def parse_nro_symbols (data : RStr) : Except String (List NroSymbol) :=
  match sliceGet data 16 20 with
  | none => Except.error ("short file")
  | some magic =>
    if magic ≠ nroMagic then Except.ok []
    else
      match read_u32_le data 32 with
      | none => Except.error ("invalid text offset")
      | some tloc =>
      match read_u32_le data 36 with
      | none => Except.error ("invalid text size")
      | some tsize =>
      match read_u32_le data 40 with
      | none => Except.error ("invalid ro offset")
      | some rloc =>
      match read_u32_le data 44 with
      | none => Except.error ("invalid ro size")
      | some rsize =>
      match read_u32_le data 48 with
      | none => Except.error ("invalid data offset")
      | some dloc =>
      match read_u32_le data 52 with
      | none => Except.error ("invalid data size")
      | some dsize =>
      if tloc + tsize > data.length ∨ rloc + rsize > data.length ∨
          dloc + dsize > data.length then Except.ok []
      else
        let text := (data.drop tloc).take tsize
        let ro := (data.drop rloc).take rsize
        let dataseg := (data.drop dloc).take dsize
        let full1 :=
          if rloc > text.length then text ++ List.replicate (rloc - text.length) 0
          else text.take rloc
        let full2 := full1 ++ ro
        let full3 :=
          if dloc > full2.length then full2 ++ List.replicate (dloc - full2.length) 0
          else full2.take dloc
        let full := full3 ++ dataseg
        match read_u32_le full 4 with
        | none => Except.error ("missing MOD0 offset")
        | some modoff =>
        match sliceGet full modoff (modoff + 4) with
        | none => Except.error ("invalid MOD0 offset")
        | some modMagic =>
        if modMagic ≠ mod0Magic then Except.ok []
        else
        match read_u32_le full (modoff + 4) with
        | none => Except.error ("invalid dynamic offset")
        | some dynamicRel =>
        if modoff + dynamicRel ≥ full.length then Except.ok []
        else
          match dynWalk full full.length (modoff + dynamicRel) none none none with
          | (some dynstrOff, some dynstrSize, some dynsymOff) =>
            if dynstrSize = 0 ∨ dynstrOff ≥ full.length ∨ dynsymOff ≥ full.length ∨
                dynsymOff ≥ dynstrOff then Except.ok []
            else
              let dynstrEnd := min (dynstrOff + dynstrSize) full.length
              if dynstrEnd ≤ dynstrOff then Except.ok []
              else
                let count := (dynstrOff - dynsymOff) / 24
                Except.ok (sortByStable symLe
                  ((List.range count).filterMap (symAt full dynsymOff dynstrOff dynstrEnd)))
          | _ => Except.ok []

theorem mem_insertStable (le : α → α → Bool) (x : α) (l : List α) (z : α) :
    z ∈ insertStable le x l ↔ z = x ∨ z ∈ l := by
  induction l with
  | nil => simp [insertStable]
  | cons y ys ih =>
    unfold insertStable
    split
    · simp only [List.mem_cons, ih]
      tauto
    · simp only [List.mem_cons]

theorem pairwise_insertStable (le : α → α → Bool)
    (hTotal : ∀ a b, le a b = true ∨ le b a = true)
    (hTrans : ∀ a b c, le a b = true → le b c = true → le a c = true)
    (x : α) (l : List α) (hl : l.Pairwise (fun a b => le a b = true)) :
    (insertStable le x l).Pairwise (fun a b => le a b = true) := by
  induction l with
  | nil => simp [insertStable]
  | cons y ys ih =>
    rcases List.pairwise_cons.mp hl with ⟨hy, hys⟩
    unfold insertStable
    split
    · rename_i hyx
      refine List.pairwise_cons.mpr ⟨?_, ih hys⟩
      intro z hz
      rcases (mem_insertStable le x ys z).mp hz with rfl | hz
      · exact hyx
      · exact hy z hz
    · rename_i hyx
      have hxy : le x y = true := by
        rcases hTotal x y with h | h
        · exact h
        · exact absurd h hyx
      refine List.pairwise_cons.mpr ⟨?_, hl⟩
      intro z hz
      rcases List.mem_cons.mp hz with rfl | hz
      · exact hxy
      · exact hTrans x y z hxy (hy z hz)

theorem pairwise_sortByStable (le : α → α → Bool)
    (hTotal : ∀ a b, le a b = true ∨ le b a = true)
    (hTrans : ∀ a b c, le a b = true → le b c = true → le a c = true)
    (l : List α) :
    (sortByStable le l).Pairwise (fun a b => le a b = true) := by
  have haux : ∀ (l acc : List α), acc.Pairwise (fun a b => le a b = true) →
      (l.foldl (fun acc x => insertStable le x acc) acc).Pairwise
        (fun a b => le a b = true) := by
    intro l
    induction l with
    | nil =>
      intro acc h
      simpa using h
    | cons x xs ih =>
      intro acc h
      exact ih _ (pairwise_insertStable le hTotal hTrans x acc h)
  exact haux l [] (by simp)

theorem lexLt_irrefl (a : RStr) : lexLt a a = false := by
  induction a with
  | nil => rfl
  | cons x xs ih => simp [lexLt, ih]

theorem lexLt_trans (a : RStr) : ∀ b c : RStr,
    lexLt a b = true → lexLt b c = true → lexLt a c = true := by
  induction a with
  | nil =>
    intro b c hab hbc
    cases c with
    | nil =>
      cases b with
      | nil => exact hab
      | cons y ys => simp [lexLt] at hbc
    | cons z zs => simp [lexLt]
  | cons x xs ih =>
    intro b c hab hbc
    cases b with
    | nil => simp [lexLt] at hab
    | cons y ys =>
      cases c with
      | nil => simp [lexLt] at hbc
      | cons z zs =>
        simp only [lexLt, Bool.or_eq_true, Bool.and_eq_true, decide_eq_true_eq] at hab hbc ⊢
        rcases hab with h1 | ⟨he1, h1⟩
        · rcases hbc with h2 | ⟨he2, h2⟩
          · left; omega
          · left; omega
        · rcases hbc with h2 | ⟨he2, h2⟩
          · left; omega
          · right; exact ⟨by omega, ih ys zs h1 h2⟩

theorem lexLt_connex (a : RStr) : ∀ b : RStr,
    lexLt a b = false → lexLt b a = false → a = b := by
  induction a with
  | nil =>
    intro b h1 h2
    cases b with
    | nil => rfl
    | cons y ys => simp [lexLt] at h1
  | cons x xs ih =>
    intro b h1 h2
    cases b with
    | nil => simp [lexLt] at h2
    | cons y ys =>
      simp only [lexLt, Bool.or_eq_false_iff, Bool.and_eq_false_iff,
        decide_eq_false_iff_not] at h1 h2
      have hxy : x = y := by omega
      subst hxy
      have hxs : lexLt xs ys = false := by
        rcases h1.2 with h | h
        · simp at h
        · exact h
      have hys : lexLt ys xs = false := by
        rcases h2.2 with h | h
        · simp at h
        · exact h
      rw [ih ys hxs hys]

theorem symLe_iff (a b : NroSymbol) :
    symLe a b = true ↔
      (a.value < b.value ∨ (a.value = b.value ∧
        (lexLt a.name b.name = true ∨
          (a.name = b.name ∧ a.shndx ≤ b.shndx)))) := by
  unfold symLe
  split_ifs with h1 h2 h3 h4
  · simp [h1]
  · simp only [Bool.false_eq_true, false_iff]
    push_neg
    constructor
    · omega
    · intro h
      omega
  · simp only [true_iff]
    right
    exact ⟨by omega, Or.inl h3⟩
  · simp only [Bool.false_eq_true, false_iff]
    push_neg
    constructor
    · omega
    · intro hv
      constructor
      · simp [h3]
      · intro hn
        rw [hn] at h4
        rw [lexLt_irrefl] at h4
        simp at h4
  · have hn : a.name = b.name := lexLt_connex _ _ (by simpa using h3) (by simpa using h4)
    simp only [decide_eq_true_eq]
    constructor
    · intro h
      right
      exact ⟨by omega, Or.inr ⟨hn, h⟩⟩
    · intro h
      rcases h with h | ⟨hv, h⟩
      · omega
      · rcases h with h | ⟨_, h⟩
        · rw [hn, lexLt_irrefl] at h
          simp at h
        · exact h

theorem symLe_total (a b : NroSymbol) : symLe a b = true ∨ symLe b a = true := by
  rw [symLe_iff, symLe_iff]
  rcases Nat.lt_trichotomy a.value b.value with h | h | h
  · left; left; exact h
  · by_cases hn : lexLt a.name b.name = true
    · left; right; exact ⟨h, Or.inl hn⟩
    · by_cases hm : lexLt b.name a.name = true
      · right; right; exact ⟨h.symm, Or.inl hm⟩
      · have heq : a.name = b.name :=
          lexLt_connex _ _ (by simpa using hn) (by simpa using hm)
        by_cases hs : a.shndx ≤ b.shndx
        · left; right; exact ⟨h, Or.inr ⟨heq, hs⟩⟩
        · right; right; exact ⟨h.symm, Or.inr ⟨heq.symm, by omega⟩⟩
  · right; left; exact h

theorem symLe_trans (a b c : NroSymbol)
    (h1 : symLe a b = true) (h2 : symLe b c = true) : symLe a c = true := by
  rw [symLe_iff] at h1 h2 ⊢
  rcases h1 with h | ⟨hv, h⟩
  · rcases h2 with g | ⟨gv, g⟩
    · left; omega
    · left; omega
  · rcases h2 with g | ⟨gv, g⟩
    · left; omega
    · right
      refine ⟨by omega, ?_⟩
      rcases h with hn | ⟨hn, hs⟩
      · rcases g with gn | ⟨gn, gs⟩
        · left; exact lexLt_trans _ _ _ hn gn
        · left; rwa [← gn]
      · rcases g with gn | ⟨gn, gs⟩
        · left; rwa [hn]
        · right; exact ⟨hn.trans gn, le_trans hs gs⟩

set_option maxHeartbeats 1000000 in
theorem parse_ok_pairwise (d : RStr) (res : List NroSymbol)
    (h : parse_nro_symbols d = Except.ok res) :
    res.Pairwise (fun a b => symLe a b = true) := by
  have hsorted : ∀ l : List NroSymbol,
      (sortByStable symLe l).Pairwise (fun a b => symLe a b = true) :=
    pairwise_sortByStable symLe symLe_total symLe_trans
  revert h
  simp only [parse_nro_symbols]
  repeat' split
  all_goals intro h
  all_goals first
    | exact (Except.noConfusion h)
    | (injection h with h2; subst h2; exact List.Pairwise.nil)
    | (injection h with h2; subst h2; exact hsorted _)

/-- The complete set of error messages `parse_nro_symbols` can produce
(other than I/O failure of the initial `fs::read`, which is outside the
byte-level model): each one reports a truncated read of a required header
field. -/
def parseErrSet : List String :=
  [("short file"), ("invalid text offset"), ("invalid text size"), ("invalid ro offset"),
   ("invalid ro size"), ("invalid data offset"), ("invalid data size"),
   ("missing MOD0 offset"), ("invalid MOD0 offset"), ("invalid dynamic offset")]

set_option maxHeartbeats 1000000 in
theorem parse_error_mem (d : RStr) (e : String)
    (h : parse_nro_symbols d = Except.error e) : e ∈ parseErrSet := by
  revert h
  simp only [parse_nro_symbols]
  repeat' split
  all_goals intro h
  all_goals first
    | exact (Except.noConfusion h)
    | (injection h with h2; subst h2; decide)

theorem parse_bad_magic (d m : RStr) (hm : sliceGet d 16 20 = some m)
    (hne : m ≠ nroMagic) : parse_nro_symbols d = Except.ok [] := by
  simp only [parse_nro_symbols, hm]
  rw [if_pos hne]

/-- C4 counterexample: the empty byte input is malformed (the magic bytes
cannot even be read), yet the module-image parser returns an explicit
error, `"short file"`, instead of an empty symbol list. -/
theorem C4_counterexample : parse_nro_symbols [] = Except.error ("short file") := by rfl

/-- C4 amended: the parser degrades to an empty symbol list on structural
anomalies found after the required header reads succeed (wrong magic
value, out-of-range segment ends, wrong MOD0 magic, dynamic table out of
range, missing dynamic tags, zero-length or inconsistent tables); but a
byte input too short for a required header read makes it return one of ten
explicit truncation errors rather than an empty list. -/
theorem C4_amended :
    (∀ d e, parse_nro_symbols d = Except.error e → e ∈ parseErrSet) ∧
    (∀ d m, sliceGet d 16 20 = some m → m ≠ nroMagic →
      parse_nro_symbols d = Except.ok []) :=
  ⟨parse_error_mem, parse_bad_magic⟩

theorem C4_witness :
    ("short file") ∈ parseErrSet ∧
    parse_nro_symbols (List.replicate 20 1) = Except.ok [] :=
  ⟨C4_amended.1 [] ("short file") (by rfl),
   C4_amended.2 (List.replicate 20 1) ([1, 1, 1, 1]) (by rfl) (by decide)⟩

/-! ### A synthetic NRO image with symbols alpha and beta (claim C5). -/

/-- Four little-endian bytes of a 32-bit value. -/
def u32le (n : Nat) : RStr := [n % 256, n / 256 % 256, n / 65536 % 256, n / 16777216 % 256]

/-- Eight little-endian bytes of a 64-bit value. -/
def u64le (n : Nat) : RStr := u32le (n % 4294967296) ++ u32le (n / 4294967296)

/-- Two little-endian bytes of a 16-bit value. -/
def u16le (n : Nat) : RStr := [n % 256, n / 256 % 256]

/-- A 16-byte dynamic-table entry. -/
def dynEnt (tag val : Nat) : RStr := u64le tag ++ u64le val

/-- A 24-byte symbol entry: name index, `st_info`, reserved byte, section
index, address, size. -/
def symEnt (nameIdx stInfo shndx value size : Nat) : RStr :=
  u32le nameIdx ++ [stInfo, 0] ++ u16le shndx ++ u64le value ++ u64le size

/-- A 204-byte synthetic module image whose single text segment covers the
whole file (so the flattened image equals the raw bytes): NRO magic at
0x10, MOD0 block at 0x40 pointing to a dynamic table at 0x50 that locates
a two-entry symbol table at 0x90 and a 12-byte string table at 0xC0
holding `alpha` and `beta`. -/
def testImage : RStr :=
  List.replicate 4 0 ++ u32le 64
  ++ List.replicate 8 0
  ++ nroMagic
  ++ List.replicate 12 0
  ++ u32le 0 ++ u32le 204 ++ u32le 204 ++ u32le 0 ++ u32le 204 ++ u32le 0
  ++ List.replicate 8 0
  ++ mod0Magic ++ u32le 16
  ++ List.replicate 8 0
  ++ dynEnt 5 192 ++ dynEnt 6 144 ++ dynEnt 10 12 ++ dynEnt 0 0
  ++ symEnt 1 18 1 4096 4
  ++ symEnt 7 33 2 8192 8
  ++ [0] ++ strCodes ("alpha") ++ [0] ++ strCodes ("beta") ++ [0]

/-- `("alpha", 0x1000, Function, Global, 4, 1)`: `st_info = 0x12` decodes
to type 2 (FUNC) and binding 1 (GLOBAL). -/
def alphaSym : NroSymbol :=
  { name := strCodes ("alpha"), value := 4096, stType := 2, stBind := 1, size := 4, shndx := 1 }

/-- `("beta", 0x2000, Object, Weak, 8, 2)`: `st_info = 0x21` decodes to
type 1 (OBJECT) and binding 2 (WEAK). -/
def betaSym : NroSymbol :=
  { name := strCodes ("beta"), value := 8192, stType := 1, stBind := 2, size := 8, shndx := 2 }

set_option maxRecDepth 10000 in
/-- C5: parsing the synthetic image returns exactly the alpha and beta
entries, byte-identical names, sorted by address; and in general every
list the parser returns is sorted ascending by `(address, name,
section_index)`. -/
theorem C5_roundtrip_sorted :
    parse_nro_symbols testImage = Except.ok [alphaSym, betaSym] ∧
    (∀ d res, parse_nro_symbols d = Except.ok res →
      res.Pairwise (fun a b => symLe a b = true)) :=
  ⟨by rfl, fun d res h => parse_ok_pairwise d res h⟩

set_option maxRecDepth 10000 in
theorem C5_witness :
    List.Pairwise (fun a b => symLe a b = true) [alphaSym, betaSym] :=
  C5_roundtrip_sorted.2 testImage [alphaSym, betaSym] (by rfl)

/-! ### Fallback symbol extractor (src/out.rs, `exported_symbols`, lines
467-512, with `parse_nm_symbols` lines 133-148, `parse_objdump_exports`
lines 162-181, `run_nm` lines 150-160, `parse_nro_exports` lines
396-405).  External tool invocations are modelled by their observable
outcome: spawn failure (an error string), unsuccessful exit status, or
captured stdout.  Tool stdout is modelled already split into lines of
whitespace tokens (`str::lines` / `split_whitespace` are std library
functions; a whitespace-only line is the empty token list). -/

/-- The `if !symbols.iter().any(|s| s == sym) { symbols.push(sym) }`
pattern shared by the three extraction parsers: append if not yet
present. -/
def pushNew (l : List RStr) (x : RStr) : List RStr := if x ∈ l then l else l ++ [x]

/-- Embedding of `parse_nm_symbols`: per line take the last whitespace
token (skipping lines that are empty after trimming) and de-duplicate in
order of first appearance. -/
def parse_nm_symbols (lines : List (List RStr)) : List RStr :=
  lines.foldl
    (fun syms line =>
      match line.getLast? with
      | none => syms
      | some sym => pushNew syms sym) []

/-- Embedding of `parse_objdump_exports`: keep the third token of lines
whose first token is all ASCII digits and whose second token starts with
`"0x"`, de-duplicated in order of first appearance. -/
def parse_objdump_exports (lines : List (List RStr)) : List RStr :=
  lines.foldl
    (fun syms parts =>
      match parts with
      | p0 :: p1 :: p2 :: _ =>
        if p0.all (fun c => isDigitCode c) && (strCodes ("0x")).isPrefixOf p1 then
          pushNew syms p2
        else syms
      | _ => syms) []

/-- Embedding of `parse_nro_exports`: the parsed symbol names,
de-duplicated in order of first appearance. -/
def parse_nro_exports (bytes : RStr) : Except String (List RStr) :=
  match parse_nro_symbols bytes with
  | Except.error e => Except.error e
  | Except.ok rows => Except.ok (rows.foldl (fun names row => pushNew names row.name) [])

/-- The observable outcome of one external tool invocation: `error` for a
spawn failure, `ok none` for an unsuccessful exit status, `ok (some
lines)` for captured stdout split into whitespace-token lines. -/
abbrev RunOutcome := Except String (Option (List (List RStr)))

/-- Embedding of `run_nm`: a spawn failure is an error, an unsuccessful
status yields no symbols, captured output goes through
`parse_nm_symbols`. -/
def runNmModel (r : RunOutcome) : Except String (List RStr) :=
  match r with
  | Except.error e => Except.error e
  | Except.ok none => Except.ok []
  | Except.ok (some lines) => Except.ok (parse_nm_symbols lines)

/-- The `for t in tries` loop of `exported_symbols` (src/out.rs lines
480-486): run each flag combination in order, propagating spawn errors and
stopping at the first non-empty result; `runs` holds the outcome of each
successive invocation. -/
def nmLoop : List RunOutcome → Except String (List RStr)
  | [] => Except.ok []
  | r :: rest =>
    match runNmModel r with
    | Except.error e => Except.error e
    | Except.ok syms => if syms ≠ [] then Except.ok syms else nmLoop rest

/-- The objdump block (src/out.rs lines 489-500): spawn failure is an
error, unsuccessful status leaves the symbol list empty, output goes
through `parse_objdump_exports`. -/
def objdumpYield (r : RunOutcome) : Except String (List RStr) :=
  match r with
  | Except.error e => Except.error e
  | Except.ok none => Except.ok []
  | Except.ok (some lines) => Except.ok (parse_objdump_exports lines)

/-- The environment a call of `exported_symbols` observes: whether the
artifact path has the `nro` extension, the artifact's bytes (read twice by
the two `parse_nro_exports` calls, identically), the nm tool probe result
with the outcomes of its up-to-four invocations, and the objdump probe
result with its outcome. -/
structure ExtractEnv where
  isNro : Bool
  nroBytes : RStr
  nmRuns : Option (List RunOutcome)
  objRun : Option RunOutcome

/-- Step 1 of `exported_symbols` (lines 468-471): the custom parse for nro
artifacts, nothing otherwise. -/
def stepNro (env : ExtractEnv) : Except String (List RStr) :=
  if env.isNro then parse_nro_exports env.nroBytes else Except.ok []

/-- Step 2 (lines 472-487): when still empty, the nm tries (if a tool was
found). -/
def stepNm (env : ExtractEnv) (s1 : List RStr) : Except String (List RStr) :=
  if s1 = [] then
    match env.nmRuns with
    | some runs => nmLoop runs
    | none => Except.ok []
  else Except.ok s1

/-- Step 3 (lines 489-500): when still empty, the objdump heuristic (if a
tool was found). -/
def stepObj (env : ExtractEnv) (s2 : List RStr) : Except String (List RStr) :=
  if s2 = [] then
    match env.objRun with
    | some r => objdumpYield r
    | none => Except.ok []
  else Except.ok s2

/-- Step 4 (lines 502-504): when still empty and the artifact is nro,
retry the custom parse once. -/
def stepRetry (env : ExtractEnv) (s3 : List RStr) : Except String (List RStr) :=
  if s3 = [] && env.isNro then parse_nro_exports env.nroBytes else Except.ok s3

/-- Embedding of `exported_symbols` (src/out.rs lines 467-512): the four
strategy steps in sequence, then the final explicit error when nothing was
found. -/
def exported_symbols (env : ExtractEnv) : Except String (List RStr) :=
  match stepNro env with
  | Except.error e => Except.error e
  | Except.ok s1 =>
    match stepNm env s1 with
    | Except.error e => Except.error e
    | Except.ok s2 =>
      match stepObj env s2 with
      | Except.error e => Except.error e
      | Except.ok s3 =>
        match stepRetry env s3 with
        | Except.error e => Except.error e
        | Except.ok s4 =>
          if s4 = [] then
            Except.error ("could not extract exported symbols from artifact (nm/objdump/nro parser found nothing)")
          else Except.ok s4

theorem pushNew_nodup (l : List RStr) (x : RStr) (h : l.Nodup) :
    (pushNew l x).Nodup := by
  unfold pushNew
  split
  · exact h
  · rename_i hx
    simp [List.nodup_append, h, hx]

theorem foldl_nodup (g : List RStr → β → List RStr)
    (hg : ∀ acc b, acc.Nodup → (g acc b).Nodup) :
    ∀ (l : List β) (acc : List RStr), acc.Nodup → (l.foldl g acc).Nodup := by
  intro l
  induction l with
  | nil =>
    intro acc h
    simpa using h
  | cons b bs ih =>
    intro acc h
    exact ih _ (hg acc b h)

theorem parse_nm_symbols_nodup (lines : List (List RStr)) :
    (parse_nm_symbols lines).Nodup := by
  apply foldl_nodup _ _ lines [] (by simp)
  intro acc b h
  cases hb : b.getLast? with
  | none => simpa using h
  | some sym => exact pushNew_nodup acc sym h

theorem parse_objdump_exports_nodup (lines : List (List RStr)) :
    (parse_objdump_exports lines).Nodup := by
  apply foldl_nodup _ _ lines [] (by simp)
  intro acc b h
  match b with
  | [] => exact h
  | [p0] => exact h
  | [p0, p1] => exact h
  | p0 :: p1 :: p2 :: rest =>
    simp only
    split
    · exact pushNew_nodup acc p2 h
    · exact h

theorem parse_nro_exports_ok_nodup (bytes : RStr) (l : List RStr)
    (h : parse_nro_exports bytes = Except.ok l) : l.Nodup := by
  unfold parse_nro_exports at h
  cases hp : parse_nro_symbols bytes with
  | error e =>
    rw [hp] at h
    exact Except.noConfusion h
  | ok rows =>
    rw [hp] at h
    injection h with h2
    subst h2
    apply foldl_nodup _ _ rows [] (by simp)
    intro acc b hacc
    exact pushNew_nodup acc b.name hacc

theorem runNmModel_ok_nodup (r : RunOutcome) (l : List RStr)
    (h : runNmModel r = Except.ok l) : l.Nodup := by
  unfold runNmModel at h
  match r with
  | Except.error e => exact Except.noConfusion h
  | Except.ok none =>
    injection h with h2
    subst h2
    simp
  | Except.ok (some lines) =>
    injection h with h2
    subst h2
    exact parse_nm_symbols_nodup lines

theorem nmLoop_ok_nodup (runs : List RunOutcome) (l : List RStr)
    (h : nmLoop runs = Except.ok l) : l.Nodup := by
  induction runs with
  | nil =>
    unfold nmLoop at h
    injection h with h2
    subst h2
    simp
  | cons r rest ih =>
    unfold nmLoop at h
    cases hr : runNmModel r with
    | error e =>
      rw [hr] at h
      exact Except.noConfusion h
    | ok syms =>
      rw [hr] at h
      by_cases hs : syms = []
      · exact ih (by simpa [hs] using h)
      · have h2 : syms = l := by simpa [hs] using h
        subst h2
        exact runNmModel_ok_nodup r syms hr

theorem objdumpYield_ok_nodup (r : RunOutcome) (l : List RStr)
    (h : objdumpYield r = Except.ok l) : l.Nodup := by
  unfold objdumpYield at h
  match r with
  | Except.error e => exact Except.noConfusion h
  | Except.ok none =>
    injection h with h2
    subst h2
    simp
  | Except.ok (some lines) =>
    injection h with h2
    subst h2
    exact parse_objdump_exports_nodup lines

theorem stepNro_ok_nodup (env : ExtractEnv) (l : List RStr)
    (h : stepNro env = Except.ok l) : l.Nodup := by
  unfold stepNro at h
  split at h
  · exact parse_nro_exports_ok_nodup _ _ h
  · injection h with h2
    subst h2
    simp

theorem stepNm_ok_nodup (env : ExtractEnv) (s : List RStr) (l : List RStr)
    (hs : s.Nodup) (h : stepNm env s = Except.ok l) : l.Nodup := by
  unfold stepNm at h
  split at h
  · cases hruns : env.nmRuns with
    | some runs =>
      rw [hruns] at h
      exact nmLoop_ok_nodup runs l h
    | none =>
      rw [hruns] at h
      injection h with h2
      subst h2
      simp
  · injection h with h2
    subst h2
    exact hs

theorem stepObj_ok_nodup (env : ExtractEnv) (s : List RStr) (l : List RStr)
    (hs : s.Nodup) (h : stepObj env s = Except.ok l) : l.Nodup := by
  unfold stepObj at h
  split at h
  · cases hr : env.objRun with
    | some r =>
      rw [hr] at h
      exact objdumpYield_ok_nodup r l h
    | none =>
      rw [hr] at h
      injection h with h2
      subst h2
      simp
  · injection h with h2
    subst h2
    exact hs

theorem stepRetry_ok_nodup (env : ExtractEnv) (s : List RStr) (l : List RStr)
    (hs : s.Nodup) (h : stepRetry env s = Except.ok l) : l.Nodup := by
  unfold stepRetry at h
  split at h
  · exact parse_nro_exports_ok_nodup _ _ h
  · injection h with h2
    subst h2
    exact hs

/-- The amended C8 statement's failure condition: every strategy the
extractor can reach reports no symbols (the custom parse returns an empty
list when attempted, every nm invocation exits empty, the objdump
invocation exits empty). -/
def allStrategiesEmpty (env : ExtractEnv) : Prop :=
  (env.isNro = true → parse_nro_exports env.nroBytes = Except.ok []) ∧
  (∀ runs, env.nmRuns = some runs → ∀ r ∈ runs, runNmModel r = Except.ok []) ∧
  (∀ r, env.objRun = some r → objdumpYield r = Except.ok [])

theorem nmLoop_all_empty (runs : List RunOutcome)
    (h : ∀ r ∈ runs, runNmModel r = Except.ok []) : nmLoop runs = Except.ok [] := by
  induction runs with
  | nil => rfl
  | cons r rest ih =>
    unfold nmLoop
    rw [h r (List.mem_cons_self r rest)]
    simp only [ne_eq, not_true_eq_false, reduceIte]
    exact ih (fun r' hr' => h r' (List.mem_cons_of_mem r hr'))

theorem exported_symbols_ok (env : ExtractEnv) (l : List RStr)
    (h : exported_symbols env = Except.ok l) : l ≠ [] ∧ l.Nodup := by
  revert h
  unfold exported_symbols
  split
  · intro h
    exact Except.noConfusion h
  · rename_i s1 h1
    split
    · intro h
      exact Except.noConfusion h
    · rename_i s2 h2
      split
      · intro h
        exact Except.noConfusion h
      · rename_i s3 h3
        split
        · intro h
          exact Except.noConfusion h
        · rename_i s4 h4
          split
          · intro h
            exact Except.noConfusion h
          · rename_i hne
            intro h
            injection h with h5
            subst h5
            refine ⟨hne, ?_⟩
            exact stepRetry_ok_nodup env s3 s4
              (stepObj_ok_nodup env s2 s3
                (stepNm_ok_nodup env s1 s2 (stepNro_ok_nodup env s1 h1) h2) h3) h4

theorem exported_symbols_nro_error (env : ExtractEnv) (e : String)
    (hn : env.isNro = true) (he : parse_nro_exports env.nroBytes = Except.error e) :
    exported_symbols env = Except.error e := by
  have h1 : stepNro env = Except.error e := by
    simp [stepNro, hn, he]
  unfold exported_symbols
  rw [h1]

theorem exported_symbols_all_empty (env : ExtractEnv) (h : allStrategiesEmpty env) :
    exported_symbols env =
      Except.error ("could not extract exported symbols from artifact (nm/objdump/nro parser found nothing)") := by
  obtain ⟨hnro, hnm, hobj⟩ := h
  have h1 : stepNro env = Except.ok [] := by
    unfold stepNro
    cases hn : env.isNro with
    | true => simpa using hnro hn
    | false => simp
  have h2 : stepNm env [] = Except.ok [] := by
    unfold stepNm
    cases hr : env.nmRuns with
    | some runs => simpa using nmLoop_all_empty runs (hnm runs hr)
    | none => simp
  have h3 : stepObj env [] = Except.ok [] := by
    unfold stepObj
    cases hr : env.objRun with
    | some r => simpa using hobj r hr
    | none => simp
  have h4 : stepRetry env [] = Except.ok [] := by
    unfold stepRetry
    cases hn : env.isNro with
    | true => simpa using hnro hn
    | false => simp
  simp [exported_symbols, h1, h2, h3, h4]

/-- The inputs falsifying C8 as stated: an nro artifact whose bytes are
empty (so the custom parse errors with `"short file"`) while an available
nm tool would report the symbol `sym1`. -/
def envC8 : ExtractEnv :=
  { isNro := true
    nroBytes := []
    nmRuns := some [Except.ok (some [[strCodes ("sym1")]])]
    objRun := none }

/-- C8 counterexample: the extractor fails even though a strategy (the
first nm invocation) yields a symbol — the custom parser's error on the
truncated nro artifact is propagated before nm is ever tried, so "fails if
and only if every strategy yields no symbols" is false. -/
theorem C8_counterexample :
    exported_symbols envC8 = Except.error ("short file") ∧
    runNmModel (Except.ok (some [[strCodes ("sym1")]])) =
      Except.ok [strCodes ("sym1")] := by
  constructor
  · rfl
  · rfl

/-- C8 amended: on success the returned list is non-empty, contains symbol
names only, and is de-duplicated (each strategy's parser keeps the first
appearance of a name); the extractor fails with the explicit
all-strategies error when every reachable strategy yields no symbols; but
it also fails early, propagating the error, when the custom nro parse
errors (and likewise when a probed tool fails to spawn), even if a later
strategy would have produced symbols. -/
theorem C8_amended :
    (∀ env l, exported_symbols env = Except.ok l → l ≠ [] ∧ l.Nodup) ∧
    (∀ env e, env.isNro = true → parse_nro_exports env.nroBytes = Except.error e →
      exported_symbols env = Except.error e) ∧
    (∀ env, allStrategiesEmpty env →
      exported_symbols env =
        Except.error ("could not extract exported symbols from artifact (nm/objdump/nro parser found nothing)")) :=
  ⟨exported_symbols_ok, exported_symbols_nro_error, exported_symbols_all_empty⟩

/-- An nro environment whose bytes parse to the alpha and beta symbols. -/
def envC8ok : ExtractEnv :=
  { isNro := true, nroBytes := testImage, nmRuns := none, objRun := none }

/-- An nro environment with empty bytes and no tools. -/
def envC8err : ExtractEnv :=
  { isNro := true, nroBytes := [], nmRuns := none, objRun := none }

/-- A non-nro environment with no tools at all. -/
def envC8empty : ExtractEnv :=
  { isNro := false, nroBytes := [], nmRuns := none, objRun := none }

set_option maxRecDepth 10000 in
theorem C8_witness :
    ([strCodes ("alpha"), strCodes ("beta")] ≠ [] ∧
      List.Nodup [strCodes ("alpha"), strCodes ("beta")]) ∧
    exported_symbols envC8err = Except.error ("short file") ∧
    exported_symbols envC8empty =
      Except.error ("could not extract exported symbols from artifact (nm/objdump/nro parser found nothing)") :=
  ⟨C8_amended.1 envC8ok [strCodes ("alpha"), strCodes ("beta")] (by rfl),
   C8_amended.2.1 envC8err ("short file") (by rfl) (by rfl),
   C8_amended.2.2 envC8empty
     ⟨fun h => by simp [envC8empty] at h, fun runs h => by simp [envC8empty] at h,
      fun r h => by simp [envC8empty] at h⟩⟩

/-! ### Cross-artifact duplicate detector (src/bin/cargo-symdump.rs,
`find_duplicate_symbols`, lines 644-669).  The `BTreeMap<String,
BTreeSet<PathBuf>>` is modelled by its denotation: an association list
whose keys are strictly sorted (byte-lexicographically, as `Ord` on the
underlying strings) and whose values are strictly sorted duplicate-free
lists; `BTreeSet::insert` and `entry().or_default().insert()` become
sorted insertions. -/

/-- `BTreeSet::insert` on the sorted-duplicate-free-list denotation. -/
def insertSortedNodup (x : RStr) : List RStr → List RStr
  | [] => [x]
  | y :: ys =>
    if lexLt x y then x :: y :: ys
    else if x = y then y :: ys
    else y :: insertSortedNodup x ys

/-- `by_symbol.entry(symbol).or_default().insert(artifact)` on the
sorted-association-list denotation of the `BTreeMap`. -/
def mapInsertOwner (sym owner : RStr) :
    List (RStr × List RStr) → List (RStr × List RStr)
  | [] => [(sym, [owner])]
  | (k, v) :: rest =>
    if lexLt sym k then (sym, [owner]) :: (k, v) :: rest
    else if sym = k then (k, insertSortedNodup owner v) :: rest
    else (k, v) :: mapInsertOwner sym owner rest

/-- The per-artifact `seen` HashSet of `find_duplicate_symbols`: iterating
an artifact's symbols while skipping repeats visits exactly the
first-appearance de-duplication of the list. -/
def dedupFirstList (l : List RStr) : List RStr := l.foldl pushNew []

/-- The inner loop of `find_duplicate_symbols` for one artifact: insert
the artifact as an owner of each of its (de-duplicated) symbols. -/
def addRow (owner : RStr) (m : List (RStr × List RStr)) (syms : List RStr) :
    List (RStr × List RStr) :=
  syms.foldl (fun m sym => mapInsertOwner sym owner m) m

/-- The `by_symbol` map after both loops of `find_duplicate_symbols`. -/
def buildMap (rows : List (RStr × List RStr)) : List (RStr × List RStr) :=
  rows.foldl (fun m row => addRow row.1 m (dedupFirstList row.2)) []

/-- Embedding of `find_duplicate_symbols` (src/bin/cargo-symdump.rs lines
644-669): build the reverse index, then keep only the symbols owned by
more than one artifact (`files.len() <= 1` entries are dropped);
`BTreeMap` iteration yields the entries in key order with each owner set
sorted. -/
def find_duplicate_symbols (rows : List (RStr × List RStr)) :
    List (RStr × List RStr) :=
  (buildMap rows).filter (fun kv => decide (1 < kv.2.length))

/-- The concrete instance of the claim: artifacts A, B, C with symbol
lists `[s1, s2]`, `[s2]`, `[s1, s3]`. -/
def rowsC9 : List (RStr × List RStr) :=
  [(strCodes ("A"), [strCodes ("s1"), strCodes ("s2")]),
   (strCodes ("B"), [strCodes ("s2")]),
   (strCodes ("C"), [strCodes ("s1"), strCodes ("s3")])]

theorem lexLt_asymm (a b : RStr) (h : lexLt a b = true) : lexLt b a = false := by
  by_contra hc
  have hba : lexLt b a = true := by
    cases hh : lexLt b a
    · exact absurd hh hc
    · rfl
  have : lexLt a a = true := lexLt_trans a b a h hba
  rw [lexLt_irrefl] at this
  exact Bool.noConfusion this

theorem lexLt_of_ne_of_not_lt (a b : RStr) (hne : a ≠ b)
    (hnlt : lexLt a b = false) : lexLt b a = true := by
  cases hh : lexLt b a
  · exact absurd (lexLt_connex a b hnlt hh) hne
  · rfl

theorem mem_insertSortedNodup (x : RStr) (l : List RStr) (z : RStr) :
    z ∈ insertSortedNodup x l ↔ z = x ∨ z ∈ l := by
  induction l with
  | nil => simp [insertSortedNodup]
  | cons y ys ih =>
    unfold insertSortedNodup
    split
    · simp only [List.mem_cons]
    · split
      · rename_i heq
        subst heq
        simp only [List.mem_cons]
        tauto
      · simp only [List.mem_cons, ih]
        tauto

theorem pairwise_insertSortedNodup (x : RStr) (l : List RStr)
    (hl : l.Pairwise (fun a b => lexLt a b = true)) :
    (insertSortedNodup x l).Pairwise (fun a b => lexLt a b = true) := by
  induction l with
  | nil => simp [insertSortedNodup]
  | cons y ys ih =>
    rcases List.pairwise_cons.mp hl with ⟨hy, hys⟩
    unfold insertSortedNodup
    split
    · rename_i hxy
      refine List.pairwise_cons.mpr ⟨?_, hl⟩
      intro z hz
      rcases List.mem_cons.mp hz with rfl | hz
      · exact hxy
      · exact lexLt_trans x y z hxy (hy z hz)
    · split
      · exact hl
      · rename_i hxy hne
        have hyx : lexLt y x = true :=
          lexLt_of_ne_of_not_lt x y hne (by
            cases hh : lexLt x y
            · rfl
            · exact absurd hh hxy)
        refine List.pairwise_cons.mpr ⟨?_, ih hys⟩
        intro z hz
        rcases (mem_insertSortedNodup x ys z).mp hz with rfl | hz
        · exact hyx
        · exact hy z hz

theorem nodup_of_pairwise_lexLt (l : List RStr)
    (h : l.Pairwise (fun a b => lexLt a b = true)) : l.Nodup := by
  refine h.imp ?_
  intro a b hab
  intro he
  subst he
  rw [lexLt_irrefl] at hab
  exact Bool.noConfusion hab

theorem insertSortedNodup_ne_nil (x : RStr) (l : List RStr) :
    insertSortedNodup x l ≠ [] := by
  cases l with
  | nil => simp [insertSortedNodup]
  | cons y ys =>
    unfold insertSortedNodup
    split
    · simp
    · split
      · simp
      · simp


def keysSorted (m : List (RStr × List RStr)) : Prop :=
  m.Pairwise (fun a b => lexLt a.1 b.1 = true)

def getOwners : List (RStr × List RStr) → RStr → List RStr
  | [], _ => []
  | (k, v) :: rest, s => if k = s then v else getOwners rest s

def valuesGood (m : List (RStr × List RStr)) : Prop :=
  ∀ kv ∈ m, kv.2.Pairwise (fun a b => lexLt a b = true) ∧ kv.2 ≠ []

theorem mem_keys_mapInsertOwner (sym p : RStr) (m : List (RStr × List RStr)) :
    ∀ kv ∈ mapInsertOwner sym p m, kv.1 = sym ∨ kv.1 ∈ m.map Prod.fst := by
  induction m with
  | nil =>
    intro kv hkv
    simp [mapInsertOwner] at hkv
    simp [hkv]
  | cons hd rest ih =>
    match hd with
    | (k, v) =>
      intro kv hkv
      unfold mapInsertOwner at hkv
      split at hkv
      · rcases List.mem_cons.mp hkv with rfl | hkv
        · left; rfl
        · right
          rcases List.mem_cons.mp hkv with rfl | hkv
          · simp
          · simp only [List.map_cons, List.mem_cons]
            right
            exact List.mem_map_of_mem Prod.fst hkv
      · split at hkv
        · rcases List.mem_cons.mp hkv with rfl | hkv
          · right; simp
          · right
            simp only [List.map_cons, List.mem_cons]
            right
            exact List.mem_map_of_mem Prod.fst hkv
        · rcases List.mem_cons.mp hkv with rfl | hkv
          · right; simp
          · rcases ih kv hkv with h | h
            · left; exact h
            · right
              simp only [List.map_cons, List.mem_cons]
              right
              exact h

theorem keysSorted_mapInsertOwner (sym p : RStr) (m : List (RStr × List RStr))
    (h : keysSorted m) : keysSorted (mapInsertOwner sym p m) := by
  induction m with
  | nil => simp [mapInsertOwner, keysSorted]
  | cons hd rest ih =>
    match hd with
    | (k, v) =>
      rcases List.pairwise_cons.mp h with ⟨hy, hrest⟩
      unfold mapInsertOwner
      split
      · rename_i hlt
        refine List.pairwise_cons.mpr ⟨?_, h⟩
        intro kv hkv
        rcases List.mem_cons.mp hkv with rfl | hkv
        · exact hlt
        · exact lexLt_trans sym k kv.1 hlt (hy kv hkv)
      · split
        · rename_i hnlt heq
          exact List.pairwise_cons.mpr ⟨hy, hrest⟩
        · rename_i hnlt hne
          have hk : lexLt k sym = true :=
            lexLt_of_ne_of_not_lt sym k hne (by
              cases hh : lexLt sym k
              · rfl
              · exact absurd hh hnlt)
          refine List.pairwise_cons.mpr ⟨?_, ih hrest⟩
          intro kv hkv
          rcases mem_keys_mapInsertOwner sym p rest kv hkv with h1 | h1
          · rw [h1]; exact hk
          · rcases List.mem_map.mp h1 with ⟨kv2, hkv2, heq2⟩
            rw [← heq2]
            exact hy kv2 hkv2

theorem getOwners_nil_of_forall (m : List (RStr × List RStr)) (s : RStr)
    (h : ∀ kv ∈ m, kv.1 ≠ s) : getOwners m s = [] := by
  induction m with
  | nil => rfl
  | cons hd rest ih =>
    match hd with
    | (k, v) =>
      unfold getOwners
      rw [if_neg (h (k, v) (List.mem_cons_self _ _))]
      exact ih (fun kv hkv => h kv (List.mem_cons_of_mem _ hkv))

theorem getOwners_head_lt (k s : RStr) (v : List RStr)
    (rest : List (RStr × List RStr)) (h : keysSorted ((k, v) :: rest))
    (hlt : lexLt s k = true) : getOwners ((k, v) :: rest) s = [] := by
  rcases List.pairwise_cons.mp h with ⟨hy, hrest⟩
  apply getOwners_nil_of_forall
  intro kv hkv
  rcases List.mem_cons.mp hkv with rfl | hkv
  · intro he
    rw [← he] at hlt
    rw [lexLt_irrefl] at hlt
    exact Bool.noConfusion hlt
  · intro he
    have : lexLt s kv.1 = true := lexLt_trans s k kv.1 hlt (hy kv hkv)
    rw [← he] at this
    rw [lexLt_irrefl] at this
    exact Bool.noConfusion this

theorem getOwners_cons (k : RStr) (v : List RStr)
    (rest : List (RStr × List RStr)) (s : RStr) :
    getOwners ((k, v) :: rest) s = if k = s then v else getOwners rest s := rfl

theorem getOwners_mapInsertOwner (sym p : RStr) (m : List (RStr × List RStr))
    (h : keysSorted m) (s : RStr) :
    getOwners (mapInsertOwner sym p m) s =
      if s = sym then insertSortedNodup p (getOwners m sym) else getOwners m s := by
  induction m with
  | nil =>
    by_cases hs : s = sym
    · subst hs
      rw [show mapInsertOwner s p [] = [(s, [p])] from rfl, getOwners_cons,
        if_pos rfl, if_pos rfl]
      rfl
    · rw [show mapInsertOwner sym p [] = [(sym, [p])] from rfl, getOwners_cons,
        if_neg (fun he => hs he.symm), if_neg hs]
  | cons hd rest ih =>
    match hd with
    | (k, v) =>
      rcases List.pairwise_cons.mp h with ⟨hy, hrest⟩
      unfold mapInsertOwner
      split
      · rename_i hlt
        by_cases hs : s = sym
        · subst hs
          rw [getOwners_cons, if_pos rfl, if_pos rfl,
            getOwners_head_lt k s v rest h hlt]
          rfl
        · rw [getOwners_cons, if_neg (fun he => hs he.symm), if_neg hs]
      · split
        · rename_i hnlt heq
          subst heq
          by_cases hs : s = sym
          · subst hs
            rw [getOwners_cons, if_pos rfl, if_pos rfl, getOwners_cons, if_pos rfl]
          · rw [getOwners_cons, if_neg (fun he => hs he.symm), if_neg hs,
              getOwners_cons, if_neg (fun he => hs he.symm)]
        · rename_i hnlt hne
          by_cases hsk : k = s
          · have hsne : ¬ s = sym := fun he => hne (hsk.trans he).symm
            rw [getOwners_cons, if_pos hsk, if_neg hsne, getOwners_cons, if_pos hsk]
          · rw [getOwners_cons, if_neg hsk, ih hrest]
            by_cases hs : s = sym
            · subst hs
              rw [if_pos rfl, if_pos rfl, getOwners_cons,
                if_neg (fun he => hne he.symm)]
            · rw [if_neg hs, if_neg hs, getOwners_cons, if_neg hsk]

theorem valuesGood_mapInsertOwner (sym p : RStr) (m : List (RStr × List RStr))
    (h : valuesGood m) : valuesGood (mapInsertOwner sym p m) := by
  induction m with
  | nil =>
    intro kv hkv
    simp [mapInsertOwner] at hkv
    subst hkv
    simp [insertSortedNodup]
  | cons hd rest ih =>
    match hd with
    | (k, v) =>
      have hhd := h (k, v) (List.mem_cons_self _ _)
      have hrest : valuesGood rest := fun kv hkv => h kv (List.mem_cons_of_mem _ hkv)
      intro kv hkv
      unfold mapInsertOwner at hkv
      split at hkv
      · rcases List.mem_cons.mp hkv with rfl | hkv
        · simp [insertSortedNodup]
        · exact h kv hkv
      · split at hkv
        · rcases List.mem_cons.mp hkv with rfl | hkv
          · exact ⟨pairwise_insertSortedNodup p v hhd.1, insertSortedNodup_ne_nil p v⟩
          · exact hrest kv hkv
        · rcases List.mem_cons.mp hkv with rfl | hkv
          · exact hhd
          · exact ih hrest kv hkv


theorem mem_pushNew (l : List RStr) (x z : RStr) :
    z ∈ pushNew l x ↔ z ∈ l ∨ z = x := by
  unfold pushNew
  split
  · rename_i hx
    constructor
    · tauto
    · rintro (h | rfl)
      · exact h
      · exact hx
  · simp

theorem mem_foldl_pushNew (l : List RStr) (acc : List RStr) (z : RStr) :
    z ∈ l.foldl pushNew acc ↔ z ∈ acc ∨ z ∈ l := by
  induction l generalizing acc with
  | nil => simp
  | cons x xs ih =>
    simp only [List.foldl_cons, ih, mem_pushNew, List.mem_cons]
    tauto

theorem mem_dedupFirstList (l : List RStr) (z : RStr) :
    z ∈ dedupFirstList l ↔ z ∈ l := by
  unfold dedupFirstList
  rw [mem_foldl_pushNew]
  simp

theorem dedupFirstList_nodup (l : List RStr) : (dedupFirstList l).Nodup :=
  foldl_nodup pushNew (fun acc b h => pushNew_nodup acc b h) l [] (by simp)

theorem keysSorted_addRow (owner : RStr) (syms : List RStr)
    (m : List (RStr × List RStr)) (h : keysSorted m) :
    keysSorted (addRow owner m syms) := by
  induction syms generalizing m with
  | nil => exact h
  | cons sym rest ih => exact ih _ (keysSorted_mapInsertOwner sym owner m h)

theorem valuesGood_addRow (owner : RStr) (syms : List RStr)
    (m : List (RStr × List RStr)) (h : valuesGood m) :
    valuesGood (addRow owner m syms) := by
  induction syms generalizing m with
  | nil => exact h
  | cons sym rest ih => exact ih _ (valuesGood_mapInsertOwner sym owner m h)

theorem getOwners_addRow (owner : RStr) (syms : List RStr)
    (m : List (RStr × List RStr)) (hm : keysSorted m) (hnd : syms.Nodup) (s : RStr) :
    getOwners (addRow owner m syms) s =
      if s ∈ syms then insertSortedNodup owner (getOwners m s) else getOwners m s := by
  induction syms generalizing m with
  | nil => simp [addRow]
  | cons sym rest ih =>
    rcases List.nodup_cons.mp hnd with ⟨hnotin, hndrest⟩
    have step : addRow owner m (sym :: rest) =
        addRow owner (mapInsertOwner sym owner m) rest := rfl
    rw [step, ih (mapInsertOwner sym owner m) (keysSorted_mapInsertOwner sym owner m hm) hndrest]
    by_cases hs : s ∈ rest
    · have hssym : ¬ s = sym := fun he => hnotin (he ▸ hs)
      rw [if_pos hs, if_pos (List.mem_cons_of_mem sym hs),
        getOwners_mapInsertOwner sym owner m hm s, if_neg hssym]
    · rw [if_neg hs, getOwners_mapInsertOwner sym owner m hm s]
      by_cases hsym : s = sym
      · rw [if_pos hsym, if_pos (by rw [hsym]; exact List.mem_cons_self sym rest), hsym]
      · rw [if_neg hsym, if_neg (by simp [hsym, hs])]

/-- The claim-side description of an entry: the distinct owning artifact
paths of a symbol, collected in sorted order. -/
def distinctOwners (rows : List (RStr × List RStr)) (s : RStr) : List RStr :=
  rows.foldl (fun acc row => if s ∈ row.2 then insertSortedNodup row.1 acc else acc) []

theorem keysSorted_buildMap (rows : List (RStr × List RStr)) :
    keysSorted (buildMap rows) := by
  have haux : ∀ (rows : List (RStr × List RStr)) (m : List (RStr × List RStr)),
      keysSorted m →
      keysSorted (rows.foldl (fun m row => addRow row.1 m (dedupFirstList row.2)) m) := by
    intro rows
    induction rows with
    | nil =>
      intro m h
      exact h
    | cons row rest ih =>
      intro m h
      exact ih _ (keysSorted_addRow row.1 (dedupFirstList row.2) m h)
  exact haux rows [] (by simp [keysSorted])

theorem valuesGood_buildMap (rows : List (RStr × List RStr)) :
    valuesGood (buildMap rows) := by
  have haux : ∀ (rows : List (RStr × List RStr)) (m : List (RStr × List RStr)),
      keysSorted m → valuesGood m →
      valuesGood (rows.foldl (fun m row => addRow row.1 m (dedupFirstList row.2)) m) := by
    intro rows
    induction rows with
    | nil =>
      intro m hk h
      exact h
    | cons row rest ih =>
      intro m hk h
      exact ih _ (keysSorted_addRow row.1 (dedupFirstList row.2) m hk)
        (valuesGood_addRow row.1 (dedupFirstList row.2) m h)
  exact haux rows [] (by simp [keysSorted]) (by intro kv hkv; simp at hkv)

theorem getOwners_buildMap (rows : List (RStr × List RStr)) (s : RStr) :
    getOwners (buildMap rows) s = distinctOwners rows s := by
  have haux : ∀ (rows : List (RStr × List RStr)) (m : List (RStr × List RStr)),
      keysSorted m →
      getOwners (rows.foldl (fun m row => addRow row.1 m (dedupFirstList row.2)) m) s =
        rows.foldl (fun acc row => if s ∈ row.2 then insertSortedNodup row.1 acc else acc)
          (getOwners m s) := by
    intro rows
    induction rows with
    | nil =>
      intro m h
      rfl
    | cons row rest ih =>
      intro m h
      simp only [List.foldl_cons]
      rw [ih _ (keysSorted_addRow row.1 (dedupFirstList row.2) m h)]
      rw [getOwners_addRow row.1 (dedupFirstList row.2) m h (dedupFirstList_nodup _) s]
      by_cases hs : s ∈ row.2
      · rw [if_pos ((mem_dedupFirstList _ _).mpr hs), if_pos hs]
      · rw [if_neg (fun hc => hs ((mem_dedupFirstList _ _).mp hc)), if_neg hs]
  exact haux rows [] (by simp [keysSorted])

theorem mem_distinctOwners (rows : List (RStr × List RStr)) (s : RStr) (p : RStr) :
    p ∈ distinctOwners rows s ↔ ∃ row ∈ rows, row.1 = p ∧ s ∈ row.2 := by
  have haux : ∀ (rows : List (RStr × List RStr)) (acc : List RStr),
      (p ∈ rows.foldl
          (fun acc row => if s ∈ row.2 then insertSortedNodup row.1 acc else acc) acc ↔
        p ∈ acc ∨ ∃ row ∈ rows, row.1 = p ∧ s ∈ row.2) := by
    intro rows
    induction rows with
    | nil =>
      intro acc
      simp
    | cons row rest ih =>
      intro acc
      simp only [List.foldl_cons, ih, List.mem_cons]
      by_cases hs : s ∈ row.2
      · rw [if_pos hs, mem_insertSortedNodup]
        constructor
        · rintro ((rfl | h) | h)
          · right; exact ⟨row, Or.inl rfl, rfl, hs⟩
          · left; exact h
          · right
            rcases h with ⟨r, hr, he, hm⟩
            exact ⟨r, Or.inr hr, he, hm⟩
        · rintro (h | ⟨r, hr | hr, he, hm⟩)
          · left; right; exact h
          · subst hr
            left; left; exact he.symm
          · right; exact ⟨r, hr, he, hm⟩
      · rw [if_neg hs]
        constructor
        · rintro (h | h)
          · left; exact h
          · right
            rcases h with ⟨r, hr, he, hm⟩
            exact ⟨r, Or.inr hr, he, hm⟩
        · rintro (h | ⟨r, hr | hr, he, hm⟩)
          · left; exact h
          · subst hr
            exact absurd hm hs
          · right; exact ⟨r, hr, he, hm⟩
  rw [distinctOwners, haux rows []]
  simp

theorem getOwners_eq_of_mem (m : List (RStr × List RStr)) (hm : keysSorted m)
    (k : RStr) (v : List RStr) (h : (k, v) ∈ m) : getOwners m k = v := by
  induction m with
  | nil => simp at h
  | cons hd rest ih =>
    match hd with
    | (k0, v0) =>
      rcases List.pairwise_cons.mp hm with ⟨hy, hrest⟩
      rcases List.mem_cons.mp h with heq | h2
      · injection heq with h1 h2
        subst h1
        subst h2
        rw [getOwners_cons, if_pos rfl]
      · have hk : lexLt k0 k = true := by simpa using hy (k, v) h2
        have hne : ¬ k0 = k := by
          intro he
          rw [he, lexLt_irrefl] at hk
          exact Bool.noConfusion hk
        rw [getOwners_cons, if_neg hne]
        exact ih hrest h2

theorem mem_of_getOwners_ne_nil (m : List (RStr × List RStr)) (s : RStr)
    (h : getOwners m s ≠ []) : (s, getOwners m s) ∈ m := by
  induction m with
  | nil => simp [getOwners] at h
  | cons hd rest ih =>
    match hd with
    | (k, v) =>
      by_cases hk : k = s
      · subst hk
        rw [getOwners_cons, if_pos rfl] at h ⊢
        exact List.mem_cons_self _ _
      · rw [getOwners_cons, if_neg hk] at h ⊢
        exact List.mem_cons_of_mem _ (ih h)


/-- C9: the duplicate detector's report on A=[s1,s2], B=[s2], C=[s1,s3]
is exactly {s1: [A,C], s2: [A,B]}; and in general the report is sorted by
symbol name, every reported entry lists more than one owner with the
owning paths sorted and equal to the set of artifacts owning that symbol
(an artifact repeating a symbol counts once), and every symbol with more
than one distinct owner is reported. -/
theorem C9_duplicates :
    find_duplicate_symbols rowsC9 =
      [(strCodes ("s1"), [strCodes ("A"), strCodes ("C")]),
       (strCodes ("s2"), [strCodes ("A"), strCodes ("B")])] ∧
    (∀ rows, (find_duplicate_symbols rows).Pairwise
      (fun a b => lexLt a.1 b.1 = true)) ∧
    (∀ rows sym owners, (sym, owners) ∈ find_duplicate_symbols rows →
      1 < owners.length ∧ owners.Pairwise (fun a b => lexLt a b = true) ∧
      (∀ p, p ∈ owners ↔ ∃ row ∈ rows, row.1 = p ∧ sym ∈ row.2)) ∧
    (∀ rows sym, 1 < (distinctOwners rows sym).length →
      (sym, distinctOwners rows sym) ∈ find_duplicate_symbols rows) := by
  refine ⟨by decide, ?_, ?_, ?_⟩
  · intro rows
    have h := keysSorted_buildMap rows
    unfold keysSorted at h
    exact List.Pairwise.filter _ h
  · intro rows sym owners hmem
    have h2 := List.mem_filter.mp hmem
    have hin : (sym, owners) ∈ buildMap rows := h2.1
    have hlen : 1 < owners.length := by simpa using h2.2
    have hvg := valuesGood_buildMap rows (sym, owners) hin
    have howners : owners = distinctOwners rows sym := by
      rw [← getOwners_buildMap rows sym]
      exact (getOwners_eq_of_mem _ (keysSorted_buildMap rows) _ _ hin).symm
    refine ⟨hlen, hvg.1, ?_⟩
    intro p
    rw [howners, mem_distinctOwners]
  · intro rows sym hlen
    have hne : distinctOwners rows sym ≠ [] := by
      intro he
      rw [he] at hlen
      simp at hlen
    have hg : getOwners (buildMap rows) sym = distinctOwners rows sym :=
      getOwners_buildMap rows sym
    have hmem : (sym, distinctOwners rows sym) ∈ buildMap rows := by
      rw [← hg]
      apply mem_of_getOwners_ne_nil
      rw [hg]
      exact hne
    exact List.mem_filter.mpr ⟨hmem, by simp [hlen]⟩

theorem C9_witness :
    (1 < [strCodes ("A"), strCodes ("C")].length ∧
      List.Pairwise (fun a b => lexLt a b = true) [strCodes ("A"), strCodes ("C")] ∧
      (∀ p, p ∈ [strCodes ("A"), strCodes ("C")] ↔
        ∃ row ∈ rowsC9, row.1 = p ∧ strCodes ("s1") ∈ row.2)) ∧
    (strCodes ("s1"), distinctOwners rowsC9 (strCodes ("s1"))) ∈
      find_duplicate_symbols rowsC9 :=
  ⟨C9_duplicates.2.2.1 rowsC9 (strCodes ("s1"))
     [strCodes ("A"), strCodes ("C")] (by decide),
   C9_duplicates.2.2.2 rowsC9 (strCodes ("s1")) (by decide)⟩

/-! ### Export-name rendering (src/lib.rs `symbaker` line 491,
src/filter.rs `render_export_name` lines 152-163). -/

/-- One bounded step list of Rust's `str::replace`: scan left to right,
replacing each non-overlapping occurrence of `pat` (when non-empty) by
`rep` and continuing after it.  Each step consumes at least one character
of `s`, so `s.length` fuel always suffices. -/
def replaceAllGo (pat rep : RStr) : Nat → RStr → RStr
  | 0, s => s
  | fuel+1, s =>
    match s with
    | [] => []
    | c :: rest =>
      if pat ≠ [] ∧ pat.isPrefixOf (c :: rest) = true then
        rep ++ replaceAllGo pat rep fuel ((c :: rest).drop pat.length)
      else c :: replaceAllGo pat rep fuel rest

/-- Rust's `str::replace` for a non-empty pattern (all patterns used by
`render_export_name` are non-empty placeholder literals). -/
def replaceAll (pat rep s : RStr) : RStr := replaceAllGo pat rep s.length s

/-- The `template` and `suffix` fields of `ModuleRules`
(src/filter.rs lines 4-12); the include/exclude regex and glob filters
drive `should_prefix` only and play no part in `render_export_name`, so
they are not modelled. -/
structure ModuleRules where
  template : Option RStr
  suffix : Option RStr

/-- Embedding of `render_export_name` (src/filter.rs lines 152-163): with
a template, five `str::replace` calls in sequence over the placeholders
for the prefix, separator, module, function name and suffix; without one,
the concatenation prefix ++ sep ++ name ++ suffix (suffix defaulting to
the empty string). -/
def render_export_name (rules : ModuleRules) (pfx sep module' fname : RStr) : RStr :=
  let sfx := rules.suffix.getD []
  match rules.template with
  | some tpl =>
    replaceAll (strCodes ("\x7bsuffix\x7d")) sfx
      (replaceAll (strCodes ("\x7bname\x7d")) fname
        (replaceAll (strCodes ("\x7bmodule\x7d")) module'
          (replaceAll (strCodes ("\x7bsep\x7d")) sep
            (replaceAll (strCodes ("\x7bprefix\x7d")) pfx tpl))))
  | none => pfx ++ sep ++ fname ++ sfx

/-- The export name the function-level `symbaker` macro constructs
(src/lib.rs line 491). -/
def symbakerExportName (pfx sep rustName : RStr) : RStr := pfx ++ sep ++ rustName

/-- One bounded step of the specification's reading of template
substitution: a single left-to-right scan of the template in which every
placeholder occurrence is replaced by its value (values are not
rescanned). -/
def substTemplateGo (pfx sep module' fname sfx : RStr) : Nat → RStr → RStr
  | 0, s => s
  | fuel+1, s =>
    match s with
    | [] => []
    | c :: rest =>
      if (strCodes ("\x7bprefix\x7d")).isPrefixOf (c :: rest) then
        pfx ++ substTemplateGo pfx sep module' fname sfx fuel ((c :: rest).drop 8)
      else if (strCodes ("\x7bsep\x7d")).isPrefixOf (c :: rest) then
        sep ++ substTemplateGo pfx sep module' fname sfx fuel ((c :: rest).drop 5)
      else if (strCodes ("\x7bmodule\x7d")).isPrefixOf (c :: rest) then
        module' ++ substTemplateGo pfx sep module' fname sfx fuel ((c :: rest).drop 8)
      else if (strCodes ("\x7bname\x7d")).isPrefixOf (c :: rest) then
        fname ++ substTemplateGo pfx sep module' fname sfx fuel ((c :: rest).drop 6)
      else if (strCodes ("\x7bsuffix\x7d")).isPrefixOf (c :: rest) then
        sfx ++ substTemplateGo pfx sep module' fname sfx fuel ((c :: rest).drop 8)
      else c :: substTemplateGo pfx sep module' fname sfx fuel rest

/-- The claim's reading of the template case, from the specification's
words: the template with each placeholder occurrence textually substituted
by its value, in one simultaneous pass. -/
def substTemplateSpec (pfx sep module' fname sfx tpl : RStr) : RStr :=
  substTemplateGo pfx sep module' fname sfx tpl.length tpl

/-- The template for the C10 counterexample: an open brace, the prefix
placeholder, and a close brace. -/
def rulesC10 : ModuleRules :=
  { template := some (strCodes ("\x7b\x7bprefix\x7d\x7d")), suffix := none }

/-- C10 counterexample: with the template brace-prefix-placeholder-brace,
prefix value `sep` and separator value `S`, the code substitutes
sequentially — the replacement of the prefix placeholder produces the text
of the separator placeholder, which the next `str::replace` then also
substitutes — yielding `S`; textually substituting the template's only
placeholder (the claim's reading) yields brace-`sep`-brace instead. -/
theorem C10_counterexample :
    render_export_name rulesC10 (strCodes ("sep")) (strCodes ("S"))
      (strCodes ("m")) (strCodes ("f")) = strCodes ("S") ∧
    substTemplateSpec (strCodes ("sep")) (strCodes ("S")) (strCodes ("m"))
      (strCodes ("f")) [] (strCodes ("\x7b\x7bprefix\x7d\x7d")) =
      strCodes ("\x7bsep\x7d") ∧
    strCodes ("S") ≠ strCodes ("\x7bsep\x7d") := by
  refine ⟨by decide, by decide, by decide⟩

theorem replaceAllGo_not_mem (pat rep : RStr) (c0 : Nat) (hp : pat.head? = some c0) :
    ∀ (fuel : Nat) (s : RStr), c0 ∉ s → replaceAllGo pat rep fuel s = s := by
  intro fuel
  induction fuel with
  | zero =>
    intro s h
    rfl
  | succ n ih =>
    intro s h
    match s with
    | [] => rfl
    | c :: rest =>
      have hcond : ¬ (pat ≠ [] ∧ pat.isPrefixOf (c :: rest) = true) := by
        rintro ⟨hne, hpre⟩
        match pat, hp with
        | c1 :: pat', hp =>
          have hc1 : c1 = c0 := by simpa using hp
          have hcc : c1 = c := by
            simp [List.isPrefixOf] at hpre
            exact hpre.1
          apply h
          rw [← hc1, hcc]
          exact List.mem_cons_self c rest
      rw [replaceAllGo, if_neg hcond]
      rw [ih rest (fun hr => h (List.mem_cons_of_mem c hr))]

theorem replaceAll_not_mem (pat rep s : RStr) (c0 : Nat) (hp : pat.head? = some c0)
    (hc : c0 ∉ s) : replaceAll pat rep s = s :=
  replaceAllGo_not_mem pat rep c0 hp s.length s hc

/-- C10 amended: the function-level macro's export name is exactly
prefix ++ sep ++ name; the module-level macro without a template yields
prefix ++ sep ++ name ++ suffix with the suffix defaulting to empty; with
a template the name is the result of five sequential `str::replace` passes
(prefix, then sep, then module, then name, then suffix placeholder), so
placeholder text arising from an earlier substituted value is itself
substituted by the later passes; on templates containing no open brace no
substitution happens at all. -/
theorem C10_amended (pfx sep module' fname tpl : RStr) (sfx : Option RStr) :
    symbakerExportName pfx sep fname = pfx ++ sep ++ fname ∧
    render_export_name ⟨none, sfx⟩ pfx sep module' fname =
      pfx ++ sep ++ fname ++ sfx.getD [] ∧
    render_export_name ⟨some tpl, sfx⟩ pfx sep module' fname =
      replaceAll (strCodes ("\x7bsuffix\x7d")) (sfx.getD [])
        (replaceAll (strCodes ("\x7bname\x7d")) fname
          (replaceAll (strCodes ("\x7bmodule\x7d")) module'
            (replaceAll (strCodes ("\x7bsep\x7d")) sep
              (replaceAll (strCodes ("\x7bprefix\x7d")) pfx tpl)))) ∧
    ((∀ c ∈ tpl, c ≠ 123) →
      render_export_name ⟨some tpl, sfx⟩ pfx sep module' fname = tpl) := by
  refine ⟨rfl, rfl, rfl, ?_⟩
  intro hnb
  have hmem : (123 : Nat) ∉ tpl := fun hm => (hnb 123 hm) rfl
  show replaceAll (strCodes ("\x7bsuffix\x7d")) (sfx.getD [])
      (replaceAll (strCodes ("\x7bname\x7d")) fname
        (replaceAll (strCodes ("\x7bmodule\x7d")) module'
          (replaceAll (strCodes ("\x7bsep\x7d")) sep
            (replaceAll (strCodes ("\x7bprefix\x7d")) pfx tpl)))) = tpl
  rw [replaceAll_not_mem _ pfx tpl 123 (by decide) hmem,
    replaceAll_not_mem _ sep tpl 123 (by decide) hmem,
    replaceAll_not_mem _ module' tpl 123 (by decide) hmem,
    replaceAll_not_mem _ fname tpl 123 (by decide) hmem,
    replaceAll_not_mem _ (sfx.getD []) tpl 123 (by decide) hmem]

theorem C10_witness :
    render_export_name ⟨some (strCodes ("plain")), none⟩ (strCodes ("p"))
      (strCodes ("_")) (strCodes ("m")) (strCodes ("f")) = strCodes ("plain") :=
  (C10_amended (strCodes ("p")) (strCodes ("_")) (strCodes ("m")) (strCodes ("f"))
    (strCodes ("plain")) none).2.2.2 (by decide)

end Symbaker
